import Mathlib

/-!
Verification model of the stdem spreadsheet-to-JSON converter.

The development shallowly embeds the two core modules of the repository:

* `head_type.py` — the schema type-node tree (`HeadType` and its variants)
  together with the recursive, stateful row extractor `parse_data`;
* `excel_parser.py` — the header compiler (`Head.__init__`, `Head.row_parser`,
  `Head.get_cell_max_col`) and the extraction session driver `get_data`
  (modelled from the point where the workbook has been loaded and presented
  as a grid of cells plus merged-cell rectangles; file-system handling is an
  external collaborator).

Python object identity is made explicit: every `HeadList`/`HeadDict` node
carries an allocation identifier `id`, and its mutable accumulator
(`self.data`) lives in an explicit heap keyed by that identifier, so the
aliasing of a returned container into later mutations is preserved.  During
header compilation, references to nodes held by `headList` are represented as
paths from the root (node objects are created once and never moved, so a path
is a faithful stand-in for an object reference).  Exception classes live in a
module that only declares them; their kinds and payloads are taken from the
raise sites in the two embedded modules.
-/

/-- A raw spreadsheet cell value.  The model covers integer and string
cells (the kinds exercised by the repository's sheets); `Option` at the use
sites models Python `None` for empty cells. -/
inductive CellVal where
  | vint (n : Int)
  | vstr (s : String)
deriving DecidableEq, Repr

/-- A spreadsheet cell: 1-based row and column coordinates plus an optional
scalar value, exactly the interface `openpyxl` cells expose to the core. -/
structure Cell where
  rowIdx : Nat
  col : Nat
  value : Option CellVal
deriving DecidableEq, Repr

/-- Python truthiness of a cell value: `0` and the empty string are falsy. -/
def CellVal.truthy : CellVal → Bool
  | .vint n => n != 0
  | .vstr s => s != ""

/-- Truthiness of an optional cell value (`None` is falsy). -/
def truthyOpt : Option CellVal → Bool
  | none => false
  | some v => v.truthy

/-- Python `str()` of a cell value. -/
def CellVal.pyStr : CellVal → String
  | .vint n => toString n
  | .vstr s => s

/-- Python list indexing `xs[i]` with an `Int` index: non-negative indices
are direct, negative indices wrap from the end, anything else is an
`IndexError` (`none`). -/
def pyIndex {α : Type} (xs : List α) (i : Int) : Option α :=
  if 0 ≤ i then xs.get? i.toNat
  else if (-i).toNat ≤ xs.length then xs.get? (xs.length - (-i).toNat)
  else none

/-- Split a character list at the first colon: the model of Python
`split(":", 1)` (`none` when no colon occurs). -/
def splitAtColon : List Char → Option (List Char × List Char)
  | [] => none
  | c :: rest =>
    if c = ':' then some ([], rest)
    else
      match splitAtColon rest with
      | none => none
      | some (pre, post) => some (c :: pre, post)

/-- Accumulate decimal digits left to right (`none` on a non-digit). -/
def decDigits : List Char → Nat → Option Nat
  | [], acc => some acc
  | c :: rest, acc =>
    if c.isDigit then decDigits rest (acc * 10 + (c.toNat - 48)) else none

/-- Python `int()` on a string: an optionally signed run of decimal
digits; anything else raises `ValueError` (`none`). -/
def pyIntOfStr (s : String) : Option Int :=
  match s.toList with
  | [] => none
  | '-' :: rest =>
    match rest with
    | [] => none
    | _ => (decDigits rest 0).map (fun n => -(n : Int))
  | '+' :: rest =>
    match rest with
    | [] => none
    | _ => (decDigits rest 0).map (fun n => (n : Int))
  | cs => (decDigits cs 0).map (fun n => (n : Int))

/-- Python `int(value)` on a cell value: identity on ints, integer-literal
parsing on strings (a string that is not an integer literal raises
`ValueError`). -/
def intConv : CellVal → Except String Int
  | .vint n => .ok n
  | .vstr s =>
    match pyIntOfStr s with
    | some n => .ok n
    | none => .error "ValueError"

/-- Python `float(value)` on a cell value, restricted to the integral floats
the model's cells can denote: identity on ints, integer-literal parsing on
strings; anything else raises `ValueError`. -/
def floatConv : CellVal → Except String Int
  | .vint n => .ok n
  | .vstr s =>
    match pyIntOfStr s with
    | some n => .ok n
    | none => .error "ValueError"

/-- Python `str(value)` used by `HeadString.parse_data`; it never fails. -/
def strConv : CellVal → String
  | .vint n => toString n
  | .vstr s => s

/-- A Python value produced by extraction.  Container accumulators owned by
`HeadList`/`HeadDict` nodes are referenced through `pref` (the node's
allocation identifier), which is how the source's mutable-object aliasing is
kept observable; the fresh mapping a `HeadClass` builds per extraction is
carried inline as `pdict`. -/
inductive PyVal where
  | pnone
  | pint (n : Int)
  | pfloat (n : Int)
  | pstr (s : String)
  | pref (id : Nat)
  | pdict (entries : List (String × PyVal))

/-- The mutable accumulator of a container node: `self.data` of a
`HeadList` (ordered sequence) or of a `HeadDict` (insertion-ordered
mapping). -/
inductive Accum where
  | alist (xs : List PyVal)
  | adict (xs : List (PyVal × PyVal))

/-- The accumulator heap: one entry per container node that has had its
`self.data` attribute assigned, keyed by allocation identifier. -/
def Heap : Type := List (Nat × Accum)

/-- Read a container's accumulator: `none` models a missing `self.data`
attribute (Python would raise `AttributeError` on access). -/
def heapGet (h : Heap) (i : Nat) : Option Accum :=
  match h with
  | [] => none
  | (j, a) :: rest => if j = i then some a else heapGet rest i

/-- Assign a container's accumulator, updating in place if the attribute
already exists. -/
def heapSet (h : Heap) (i : Nat) (a : Accum) : Heap :=
  match h with
  | [] => [(i, a)]
  | (j, b) :: rest => if j = i then (j, a) :: rest else (j, b) :: heapSet rest i a

/-- The closed error taxonomy raised by the embedded modules, with the
payloads of the corresponding raise sites, plus three markers for failures
that escape the taxonomy (`attributeError`, `indexError`) or only the model
can produce (`modelGap`). -/
inductive Err where
  | invalidTypeName (cell : Cell) (typeName : String) (valid : List String)
      (fn : Option String)
  | invalidHeaderFormat (cell : Cell) (msg : String) (fn : Option String)
  | childAddition (cell : Cell) (cls : String) (msg : String)
  | unexpectedData (cell : Cell) (fn : Option String)
  | typeConversion (cell : Cell) (value : CellVal) (target : String)
      (cause : String) (fn : Option String)
  | invalidIndex (cell : Cell) (expected : Nat) (observed : PyVal)
      (fn : Option String)
  | missingHeaderMarker (cell : Cell) (found : String) (fn : Option String)
  | missingDataMarker (fn : Option String)
  | emptyFile (fn : Option String)
  | attributeError
  | indexError
  | modelGap (s : String)

/-- The schema type-node tree.  Variants mirror the `HeadType` subclasses;
each node stores the header cell it was created from (`self.cell`).
`hlist`/`hdict` carry their allocation identifier and their `key`/`value`
child slots, which start out as `None`; `hclass` carries its ordered
children list. -/
inductive HeadT where
  | hbase (name : String) (cell : Cell)
  | hint (name : String) (cell : Cell)
  | hfloat (name : String) (cell : Cell)
  | hstring (name : String) (cell : Cell)
  | hlist (name : String) (cell : Cell) (id : Nat) (key : Option HeadT)
      (value : Option HeadT)
  | hdict (name : String) (cell : Cell) (id : Nat) (key : Option HeadT)
      (value : Option HeadT)
  | hclass (name : String) (cell : Cell) (children : List HeadT)

/-- `self.name`. -/
def HeadT.nameOf : HeadT → String
  | .hbase n _ | .hint n _ | .hfloat n _ | .hstring n _ => n
  | .hlist n _ _ _ _ | .hdict n _ _ _ _ | .hclass n _ _ => n

/-- `self.cell`. -/
def HeadT.cellOf : HeadT → Cell
  | .hbase _ c | .hint _ c | .hfloat _ c | .hstring _ c => c
  | .hlist _ c _ _ _ | .hdict _ c _ _ _ | .hclass _ c _ => c

/-- `self.column = cell.column - 2`, fixed at construction. -/
def HeadT.colOf (t : HeadT) : Int :=
  (t.cellOf.col : Int) - 2

/-- `self.__class__.__name__`, as used in `ChildAdditionError`. -/
def HeadT.clsName : HeadT → String
  | .hbase _ _ => "HeadType"
  | .hint _ _ => "HeadInt"
  | .hfloat _ _ => "HeadFloat"
  | .hstring _ _ => "HeadString"
  | .hlist _ _ _ _ _ => "HeadList"
  | .hdict _ _ _ _ _ => "HeadDict"
  | .hclass _ _ _ => "HeadClass"

/-- `HeadType._validate_and_convert`: decide whether a scalar cell should be
converted; data present while `enable` is false is an `UnexpectedDataError`. -/
def validateAndConvert (dc : Cell) (enable : Bool) (fn : Option String) :
    Except Err (Bool × Option CellVal) :=
  if enable then
    match dc.value with
    | some v => .ok (true, some v)
    | none => .ok (false, none)
  else
    match dc.value with
    | some _ => .error (.unexpectedData dc fn)
    | none => .ok (false, none)

/-- Embed a raw cell value as the Python value returned unconverted by the
base `HeadType.parse_data`. -/
def CellVal.toPy : CellVal → PyVal
  | .vint n => .pint n
  | .vstr s => .pstr s

/-- Python `key != len(self.data)` specialised to the values a list key can
hold: numeric values compare by value, everything else compares unequal. -/
def keyEqLen (kv : PyVal) (n : Nat) : Bool :=
  match kv with
  | .pint m => m == (n : Int)
  | .pfloat m => m == (n : Int)
  | _ => false

/-- Python `==` on the values a dict key can hold (used by
`self.data[key] = ...` to decide between overwrite and append). -/
def pyKeyEq : PyVal → PyVal → Bool
  | .pint a, .pint b => a == b
  | .pfloat a, .pfloat b => a == b
  | .pstr a, .pstr b => a == b
  | .pnone, .pnone => true
  | _, _ => false

/-- `self.data[key] = v` on a dict accumulator: overwrite in place if the key
is present, append otherwise. -/
def updKey (xs : List (PyVal × PyVal)) (k v : PyVal) : List (PyVal × PyVal) :=
  match xs with
  | [] => [(k, v)]
  | (k0, v0) :: rest =>
    if pyKeyEq k0 k then (k0, v) :: rest else (k0, v0) :: updKey rest k v

/-- `ret[i.name] = v` on the mapping a `HeadClass` builds: overwrite in place
if the name is present, append otherwise. -/
def updStr (xs : List (String × PyVal)) (k : String) (v : PyVal) :
    List (String × PyVal) :=
  match xs with
  | [] => [(k, v)]
  | (k0, v0) :: rest =>
    if k0 = k then (k0, v) :: rest else (k0, v0) :: updStr rest k v

mutual

/-- `parse_data` of `head_type.py`, per variant.  The result pairs the
returned Python value with the accumulator heap after the call; `self.data`
reads on a container whose attribute was never assigned surface as
`attributeError`, and `data[self.column]` out of range as `indexError`. -/
def parseData : HeadT → List Cell → Bool → Option String → Heap →
    Except Err (PyVal × Heap)
  | .hbase _ c, row, enable, fn, h =>
    match pyIndex row ((c.col : Int) - 2) with
    | none => .error .indexError
    | some dc =>
      if enable then
        match dc.value with
        | some v => .ok (v.toPy, h)
        | none => .ok (.pnone, h)
      else
        match dc.value with
        | some _ => .error (.unexpectedData dc fn)
        | none => .ok (.pnone, h)
  | .hint _ c, row, enable, fn, h =>
    match pyIndex row ((c.col : Int) - 2) with
    | none => .error .indexError
    | some dc => do
      let sv ← validateAndConvert dc enable fn
      match sv with
      | (true, some cv) =>
        match intConv cv with
        | .ok n => .ok (.pint n, h)
        | .error e => .error (.typeConversion dc cv "int" e fn)
      | _ => .ok (.pnone, h)
  | .hfloat _ c, row, enable, fn, h =>
    match pyIndex row ((c.col : Int) - 2) with
    | none => .error .indexError
    | some dc => do
      let sv ← validateAndConvert dc enable fn
      match sv with
      | (true, some cv) =>
        match floatConv cv with
        | .ok n => .ok (.pfloat n, h)
        | .error e => .error (.typeConversion dc cv "float" e fn)
      | _ => .ok (.pnone, h)
  | .hstring _ c, row, enable, fn, h =>
    match pyIndex row ((c.col : Int) - 2) with
    | none => .error .indexError
    | some dc => do
      let sv ← validateAndConvert dc enable fn
      match sv with
      | (true, some cv) => .ok (.pstr (strConv cv), h)
      | _ => .ok (.pnone, h)
  | .hlist _ c id key value, row, enable, fn, h =>
    let h1 := if enable then heapSet h id (.alist []) else h
    match key with
    | none => .error .attributeError
    | some k => do
      let (kv, h2) ← parseData k row true fn h1
      match kv with
      | .pnone =>
        match value with
        | none => .error .attributeError
        | some vt => do
          let (_, h3) ← parseData vt row false fn h2
          if enable then .ok (.pref id, h3) else .ok (.pnone, h3)
      | kv =>
        match heapGet h2 id with
        | none => .error .attributeError
        | some (.adict _) => .error (.modelGap "list accumulator is a dict")
        | some (.alist acc) =>
          if keyEqLen kv acc.length then
            match value with
            | none => .error .attributeError
            | some vt => do
              let (vv, h3) ← parseData vt row true fn h2
              match heapGet h3 id with
              | some (.alist acc3) =>
                let h4 := heapSet h3 id (.alist (acc3 ++ [vv]))
                if enable then .ok (.pref id, h4) else .ok (.pnone, h4)
              | _ => .error .attributeError
          else
            match pyIndex row ((c.col : Int) - 2) with
            | none => .error .indexError
            | some dc => .error (.invalidIndex dc acc.length kv fn)
  | .hdict _ _ id key value, row, enable, fn, h =>
    let h1 := if enable then heapSet h id (.adict []) else h
    match key with
    | none => .error .attributeError
    | some k => do
      let (kv, h2) ← parseData k row true fn h1
      match kv with
      | .pnone =>
        match value with
        | none => .error .attributeError
        | some vt => do
          let (_, h3) ← parseData vt row false fn h2
          if enable then .ok (.pref id, h3) else .ok (.pnone, h3)
      | kv =>
        match value with
        | none => .error .attributeError
        | some vt => do
          let (vv, h3) ← parseData vt row true fn h2
          match heapGet h3 id with
          | some (.adict acc) =>
            let h4 := heapSet h3 id (.adict (updKey acc kv vv))
            if enable then .ok (.pref id, h4) else .ok (.pnone, h4)
          | _ => .error .attributeError
  | .hclass _ _ children, row, enable, fn, h =>
    if enable then do
      let (m, h1) ← parseClassT children row fn [] h
      .ok (.pdict m, h1)
    else do
      let h1 ← parseClassF children row fn h
      .ok (.pnone, h1)

/-- The `enable = True` loop of `HeadClass.parse_data`: extract each child in
insertion order and collect into the `ret` mapping. -/
def parseClassT : List HeadT → List Cell → Option String →
    List (String × PyVal) → Heap → Except Err (List (String × PyVal) × Heap)
  | [], _, _, acc, h => .ok (acc, h)
  | child :: rest, row, fn, acc, h => do
    let (v, h1) ← parseData child row true fn h
    parseClassT rest row fn (updStr acc child.nameOf v) h1

/-- The `enable = False` loop of `HeadClass.parse_data`: replay each child
for validation only. -/
def parseClassF : List HeadT → List Cell → Option String → Heap →
    Except Err Heap
  | [], _, _, h => .ok h
  | child :: rest, row, fn, h => do
    let (_, h1) ← parseData child row false fn h
    parseClassF rest row fn h1

end

/-- The fixed type registry `TYPE_DICT`, in declaration order, as listed in
`InvalidTypeNameError`. -/
def typeNames : List String := ["int", "string", "float", "list", "dict", "class"]

/-- The header-cell text `str(cell.value) if cell.value else ""` that
`head_creator` parses. -/
def headCellText (cell : Cell) : String :=
  match cell.value with
  | some v => if v.truthy then v.pyStr else ""
  | none => ""

/-- `head_creator` of `head_type.py`: parse a header cell of the form
`name:type` into a fresh node.  `freshId` models the allocation identity of
the created object (only container nodes consult it). -/
def headCreator (cell : Cell) (fn : Option String) (freshId : Nat) :
    Except Err HeadT :=
  let cellValue : String := headCellText cell
  match splitAtColon cellValue.toList with
  | none =>
    .error (.invalidHeaderFormat cell
      ("Header must be in format name:type, got: " ++ cellValue) fn)
  | some (pre, post) =>
    let name := String.mk pre
    let typeName := String.mk post
    if typeName = "int" then .ok (.hint name cell)
    else if typeName = "string" then .ok (.hstring name cell)
    else if typeName = "float" then .ok (.hfloat name cell)
    else if typeName = "list" then .ok (.hlist name cell freshId none none)
    else if typeName = "dict" then .ok (.hdict name cell freshId none none)
    else if typeName = "class" then .ok (.hclass name cell [])
    else .error (.invalidTypeName cell typeName typeNames fn)

/-- `add_child`, per variant; on success also reports the slot the child was
stored in (0 = key, 1 = value for containers; the index for a class). -/
def addChildNode (t : HeadT) (child : HeadT) : Except Err (HeadT × Nat) :=
  match t with
  | .hlist nm c id key value =>
    match key with
    | none =>
      match child with
      | .hint _ _ => .ok (.hlist nm c id (some child) value, 0)
      | _ =>
        .error (.childAddition c "HeadList" "First child must be HeadInt (list index)")
    | some _ =>
      match value with
      | none => .ok (.hlist nm c id key (some child), 1)
      | some _ =>
        .error (.childAddition c "HeadList"
          "List can only have 2 children (index and value)")
  | .hdict nm c id key value =>
    match key with
    | none =>
      match child with
      | .hstring _ _ => .ok (.hdict nm c id (some child) value, 0)
      | _ =>
        .error (.childAddition c "HeadDict" "First child must be HeadString (dict key)")
    | some _ =>
      match value with
      | none => .ok (.hdict nm c id key (some child), 1)
      | some _ =>
        .error (.childAddition c "HeadDict" "Dict can only have 2 children (key and value)")
  | .hclass nm c children => .ok (.hclass nm c (children ++ [child]), children.length)
  | other => .error (.childAddition other.cellOf other.clsName
      "This type does not support children")

/-- Fetch the child stored in a slot of a node. -/
def childAt (t : HeadT) (slot : Nat) : Option HeadT :=
  match t with
  | .hlist _ _ _ key value => if slot = 0 then key else if slot = 1 then value else none
  | .hdict _ _ _ key value => if slot = 0 then key else if slot = 1 then value else none
  | .hclass _ _ children => children.get? slot
  | _ => none

/-- Replace the child stored in a slot of a node. -/
def setChildAt (t : HeadT) (slot : Nat) (c : HeadT) : Option HeadT :=
  match t with
  | .hlist nm cl id key value =>
    if slot = 0 then some (.hlist nm cl id (some c) value)
    else if slot = 1 then some (.hlist nm cl id key (some c)) else none
  | .hdict nm cl id key value =>
    if slot = 0 then some (.hdict nm cl id (some c) value)
    else if slot = 1 then some (.hdict nm cl id key (some c)) else none
  | .hclass nm cl children =>
    if slot < children.length then some (.hclass nm cl (children.set slot c)) else none
  | _ => none

/-- Dereference a path (a stable stand-in for a Python object reference into
the compiled node graph). -/
def getAt (t : HeadT) : List Nat → Option HeadT
  | [] => some t
  | s :: p =>
    match childAt t s with
    | none => none
    | some c => getAt c p

/-- Replace the subtree a path points at. -/
def setAt (t : HeadT) : List Nat → HeadT → Option HeadT
  | [], r => some r
  | s :: p, r =>
    match childAt t s with
    | none => none
    | some c =>
      match setAt c p r with
      | none => none
      | some c2 => setChildAt t s c2

/-- `owner.add_child(h)` through a path: mutate the owning node in place and
return the path of the freshly attached child. -/
def addChildAt (t : HeadT) (p : List Nat) (child : HeadT) :
    Except Err (HeadT × List Nat) :=
  match getAt t p with
  | none => .error (.modelGap "dangling node reference")
  | some owner =>
    match addChildNode owner child with
    | .error e => .error e
    | .ok (owner2, slot) =>
      match setAt t p owner2 with
      | none => .error (.modelGap "dangling node reference")
      | some t2 => .ok (t2, p ++ [slot])

/-- A merged-cell rectangle, all bounds 1-based and inclusive, as `openpyxl`
exposes them. -/
structure MergedRange where
  minRow : Nat
  minCol : Nat
  maxRow : Nat
  maxCol : Nat
deriving DecidableEq, Repr

/-- `cell.coordinate in range`. -/
def MergedRange.containsCell (r : MergedRange) (c : Cell) : Bool :=
  decide (r.minRow ≤ c.rowIdx) && decide (c.rowIdx ≤ r.maxRow) &&
    decide (r.minCol ≤ c.col) && decide (c.col ≤ r.maxCol)

/-- `Head.get_cell_max_col`: the rightmost data column governed by a header
cell, from the first merged rectangle containing it, else the cell itself. -/
def getCellMaxCol (ranges : List MergedRange) (c : Cell) : Int :=
  match ranges.find? (fun r => r.containsCell c) with
  | some r => (r.maxCol : Int) - 1
  | none => (c.col : Int) - 1

/-- The compiler state of a `Head` object: the node graph rooted at
`self.head`, the column ownership table `self.headList` (paths standing for
node references), and the allocation counter for fresh node identities. -/
structure CompSt where
  tree : HeadT
  headList : List (List Nat)
  counter : Nat

/-- Python slice assignment `xs[i:j] = replicate (j-i) p`. -/
def sliceAssignP (xs : List (List Nat)) (i j : Int) (p : List Nat) :
    List (List Nat) :=
  xs.take i.toNat ++ List.replicate ((j - i).toNat) p ++
    xs.drop (max i.toNat j.toNat)

/-- The `while i < self.column` sweep of `Head.row_parser`.  The fuel only
caps the iteration count; it runs out exactly on header geometries (a merged
span not extending right of its own cell) on which the source loop would
never advance `i`, which `modelGap` marks as divergence. -/
def rowSweep (ranges : List MergedRange) (fn : Option String) (column : Nat)
    (row : List Cell) : Nat → Int → CompSt → Except Err CompSt
  | 0, _, _ => .error (.modelGap "header sweep does not terminate")
  | fuel + 1, i, st =>
    if i < (column : Int) then
      match pyIndex row i with
      | none => .error .indexError
      | some c =>
        if truthyOpt c.value then
          match headCreator c fn st.counter with
          | .error e => .error e
          | .ok hnode =>
            let j := getCellMaxCol ranges c
            match pyIndex st.headList i with
            | none => .error .indexError
            | some ownerPath =>
              match addChildAt st.tree ownerPath hnode with
              | .error e => .error e
              | .ok (t2, childPath) =>
                rowSweep ranges fn column row fuel j
                  ⟨t2, sliceAssignP st.headList i j childPath, st.counter + 1⟩
        else
          rowSweep ranges fn column row fuel (i + 1) st
    else .ok st

/-- `Head.row_parser` on one header row (already sliced past the marker
column). -/
def rowParser (ranges : List MergedRange) (fn : Option String) (column : Nat)
    (row : List Cell) (st : CompSt) : Except Err CompSt :=
  rowSweep ranges fn column row (column + 2) 0 st

/-- `Head.__init__` on `first_row[1:]`: record the column count, create the
root node from the first header cell, and point every column at it. -/
def mkHead (hrow : List Cell) (fn : Option String) : Except Err (Nat × CompSt) :=
  let column := hrow.length
  match pyIndex hrow 0 with
  | none => .error .indexError
  | some c =>
    match headCreator c fn 0 with
    | .error e => .error e
    | .ok root => .ok (column, ⟨root, List.replicate column [], 1⟩)

/-- The extraction session state of `get_data`: compiler state, the stored
column count, the `is_data` flag, the running `data_root` (initially Python
`None`, i.e. `pnone`), and the accumulator heap. -/
structure DState where
  comp : CompSt
  column : Nat
  isData : Bool
  root : PyVal
  heap : Heap

/-- The row loop of `get_data`: `#` rows are skipped, every `#data` row is
extracted with the flag set and overwrites `data_root`, other rows are
replayed for validation once `is_data` holds and otherwise feed the header
compiler. -/
def getRows (ranges : List MergedRange) (fn : Option String) :
    List (List Cell) → DState → Except Err DState
  | [], s => .ok s
  | row :: rest, s =>
    match pyIndex row 0 with
    | none => .error .indexError
    | some mc =>
      if mc.value = some (.vstr "#") then getRows ranges fn rest s
      else if mc.value = some (.vstr "#data") then
        match parseData s.comp.tree (row.drop 1) true fn s.heap with
        | .error e => .error e
        | .ok (v, h2) =>
          getRows ranges fn rest { s with isData := true, root := v, heap := h2 }
      else if s.isData then
        match parseData s.comp.tree (row.drop 1) false fn s.heap with
        | .error e => .error e
        | .ok (_, h2) => getRows ranges fn rest { s with heap := h2 }
      else
        match rowParser ranges fn s.column (row.drop 1) s.comp with
        | .error e => .error e
        | .ok st2 => getRows ranges fn rest { s with comp := st2 }

/-- `str(first_cell.value) if first_cell.value else "empty"`. -/
def headMarkerText (v : Option CellVal) : String :=
  match v with
  | some cv => if cv.truthy then cv.pyStr else "empty"
  | none => "empty"

/-- `get_data` of `excel_parser.py`, from the point where the workbook's
active sheet has been materialised as rows of cells plus merged rectangles
(file loading is an external collaborator).  Returns the `data_root` object
together with the final accumulator heap that gives the shared containers
inside it their contents. -/
def getData (sheet : List (List Cell)) (ranges : List MergedRange)
    (fn : Option String) : Except Err (PyVal × Heap) :=
  match sheet with
  | [] => .error (.emptyFile fn)
  | firstRow :: rest =>
    match pyIndex firstRow 0 with
    | none => .error .indexError
    | some fc =>
      if fc.value = some (.vstr "#head") then
        match mkHead (firstRow.drop 1) fn with
        | .error e => .error e
        | .ok (column, st0) =>
          match getRows ranges fn rest ⟨st0, column, false, .pnone, []⟩ with
          | .error e => .error e
          | .ok s =>
            match s.root with
            | .pnone => .error (.missingDataMarker fn)
            | v => .ok (v, s.heap)
      else .error (.missingHeaderMarker fc (headMarkerText fc.value) fn)

/-- The JSON-shaped value `json.dumps` would serialise. -/
inductive JVal where
  | jnull
  | jint (n : Int)
  | jfloat (n : Int)
  | jstr (s : String)
  | jarr (xs : List JVal)
  | jobj (xs : List (String × JVal))

/-- JSON object keys as `json.dumps` renders the dict keys this model can
produce. -/
def keyStr : PyVal → Option String
  | .pstr s => some s
  | .pint n => some (toString n)
  | _ => none

/-- Dereference a value against the accumulator heap, producing the JSON
view of the session output (fuel bounds the dereferencing depth). -/
def resolve (h : Heap) : Nat → PyVal → Option JVal
  | 0, _ => none
  | _ + 1, .pnone => some .jnull
  | _ + 1, .pint n => some (.jint n)
  | _ + 1, .pfloat n => some (.jfloat n)
  | _ + 1, .pstr s => some (.jstr s)
  | fuel + 1, .pdict es =>
    (es.mapM (fun (e : String × PyVal) =>
      (resolve h fuel e.2).map (fun j => (e.1, j)))).map .jobj
  | fuel + 1, .pref id =>
    match heapGet h id with
    | some (.alist xs) => (xs.mapM (resolve h fuel)).map .jarr
    | some (.adict es) =>
      (es.mapM (fun (e : PyVal × PyVal) =>
        match keyStr e.1, resolve h fuel e.2 with
        | some k, some j => some (k, j)
        | _, _ => none)).map .jobj
    | none => none

mutual

/-- Allocation identifiers of the container nodes in a tree. -/
def idsOf : HeadT → List Nat
  | .hbase _ _ | .hint _ _ | .hfloat _ _ | .hstring _ _ => []
  | .hlist _ _ id key value => id :: (idsOpt key ++ idsOpt value)
  | .hdict _ _ id key value => id :: (idsOpt key ++ idsOpt value)
  | .hclass _ _ children => idsList children

def idsOpt : Option HeadT → List Nat
  | none => []
  | some t => idsOf t

def idsList : List HeadT → List Nat
  | [] => []
  | t :: ts => idsOf t ++ idsList ts

end

mutual

/-- Key-slot discipline the header compiler guarantees: a list key, when
present, is a `HeadInt`; a dict key, when present, is a `HeadString`. -/
def keysOk : HeadT → Bool
  | .hbase _ _ | .hint _ _ | .hfloat _ _ | .hstring _ _ => true
  | .hlist _ _ _ key value =>
    (match key with
     | none => true
     | some (.hint _ _) => true
     | some _ => false) && keysOkOpt value
  | .hdict _ _ _ key value =>
    (match key with
     | none => true
     | some (.hstring _ _) => true
     | some _ => false) && keysOkOpt value
  | .hclass _ _ children => keysOkList children

def keysOkOpt : Option HeadT → Bool
  | none => true
  | some t => keysOk t

def keysOkList : List HeadT → Bool
  | [] => true
  | t :: ts => keysOk t && keysOkList ts

end

/-- Well-formedness of a compiled tree: container identities are pairwise
distinct (each Python object owns its own accumulator) and key slots obey
the `add_child` discipline. -/
def WFT (t : HeadT) : Prop :=
  (idsOf t).Nodup ∧ keysOk t = true

/-- The pure result of probing a `HeadInt` key cell on a row (the heap plays
no part in a scalar parse). -/
def intProbe (c : Cell) (row : List Cell) (fn : Option String) :
    Except Err PyVal :=
  match pyIndex row ((c.col : Int) - 2) with
  | none => .error .indexError
  | some dc =>
    match dc.value with
    | some cv =>
      match intConv cv with
      | .ok n => .ok (.pint n)
      | .error e => .error (.typeConversion dc cv "int" e fn)
    | none => .ok (.pnone)

/-- The pure result of probing a `HeadString` key cell on a row. -/
def strProbe (c : Cell) (row : List Cell) (fn : Option String) :
    Except Err PyVal :=
  match pyIndex row ((c.col : Int) - 2) with
  | none => .error .indexError
  | some dc =>
    match dc.value with
    | some cv => .ok (.pstr (strConv cv))
    | none => .ok (.pnone)

/-- Replay a sequence of rows through one node with the active flag
cleared. -/
def feedRows (t : HeadT) (fn : Option String) :
    List (List Cell) → Heap → Except Err Heap
  | [], h => .ok h
  | r :: rest, h =>
    match parseData t r false fn h with
    | .error e => .error e
    | .ok (_, h2) => feedRows t fn rest h2

/-- One container instance's worth of rows: the authoritative row with the
active flag set (from a fresh heap), then any number of rows with it
cleared. -/
def feedList (t : HeadT) (fn : Option String) (first : List Cell)
    (rest : List (List Cell)) : Except Err (PyVal × Heap) :=
  match parseData t first true fn [] with
  | .error e => .error e
  | .ok (v, h1) =>
    match feedRows t fn rest h1 with
    | .error e => .error e
    | .ok h2 => .ok (v, h2)

/-- The present key values (in row order) a `HeadInt` key child with header
cell `c` reads off a row sequence. -/
def presentKeys (c : Cell) (fn : Option String) (rows : List (List Cell)) :
    List Int :=
  rows.filterMap (fun row =>
    match intProbe c row fn with
    | .ok (.pint k) => some k
    | _ => none)

/-- Whether a row's marker cell holds the given text. -/
def markerIs (row : List Cell) (s : String) : Bool :=
  match pyIndex row 0 with
  | some mc => mc.value == some (.vstr s)
  | none => false

/-!
The camelCase module `HeadType.py` duplicates `head_type.py` with renamed
operations (`headCreator`, `addChild`, `parseData`).  Its embedding follows,
translated independently from that file.
-/

/-- `typeDict` of `HeadType.py`, in declaration order. -/
def typeNamesC : List String := ["int", "string", "float", "list", "dict", "class"]

/-- `headCreator` of `HeadType.py`. -/
def headCreatorC (cell : Cell) (fn : Option String) (freshId : Nat) :
    Except Err HeadT :=
  let cellValue : String := headCellText cell
  match splitAtColon cellValue.toList with
  | none =>
    .error (.invalidHeaderFormat cell
      ("Header must be in format name:type, got: " ++ cellValue) fn)
  | some (pre, post) =>
    let name := String.mk pre
    let typeName := String.mk post
    if typeName = "int" then .ok (.hint name cell)
    else if typeName = "string" then .ok (.hstring name cell)
    else if typeName = "float" then .ok (.hfloat name cell)
    else if typeName = "list" then .ok (.hlist name cell freshId none none)
    else if typeName = "dict" then .ok (.hdict name cell freshId none none)
    else if typeName = "class" then .ok (.hclass name cell [])
    else .error (.invalidTypeName cell typeName typeNamesC fn)

/-- `addChild` of `HeadType.py`, per variant. -/
def addChildNodeC (t : HeadT) (child : HeadT) : Except Err (HeadT × Nat) :=
  match t with
  | .hlist nm c id key value =>
    match key with
    | none =>
      match child with
      | .hint _ _ => .ok (.hlist nm c id (some child) value, 0)
      | _ =>
        .error (.childAddition c "HeadList" "First child must be HeadInt (list index)")
    | some _ =>
      match value with
      | none => .ok (.hlist nm c id key (some child), 1)
      | some _ =>
        .error (.childAddition c "HeadList"
          "List can only have 2 children (index and value)")
  | .hdict nm c id key value =>
    match key with
    | none =>
      match child with
      | .hstring _ _ => .ok (.hdict nm c id (some child) value, 0)
      | _ =>
        .error (.childAddition c "HeadDict" "First child must be HeadString (dict key)")
    | some _ =>
      match value with
      | none => .ok (.hdict nm c id key (some child), 1)
      | some _ =>
        .error (.childAddition c "HeadDict" "Dict can only have 2 children (key and value)")
  | .hclass nm c children => .ok (.hclass nm c (children ++ [child]), children.length)
  | other => .error (.childAddition other.cellOf other.clsName
      "This type does not support children")

mutual

/-- `parseData` of `HeadType.py`, per variant. -/
def parseDataC : HeadT → List Cell → Bool → Option String → Heap →
    Except Err (PyVal × Heap)
  | .hbase _ c, row, enable, fn, h =>
    match pyIndex row ((c.col : Int) - 2) with
    | none => .error .indexError
    | some dc =>
      if enable then
        match dc.value with
        | some v => .ok (v.toPy, h)
        | none => .ok (.pnone, h)
      else
        match dc.value with
        | some _ => .error (.unexpectedData dc fn)
        | none => .ok (.pnone, h)
  | .hint _ c, row, enable, fn, h =>
    match pyIndex row ((c.col : Int) - 2) with
    | none => .error .indexError
    | some dc => do
      let sv ← validateAndConvert dc enable fn
      match sv with
      | (true, some cv) =>
        match intConv cv with
        | .ok n => .ok (.pint n, h)
        | .error e => .error (.typeConversion dc cv "int" e fn)
      | _ => .ok (.pnone, h)
  | .hfloat _ c, row, enable, fn, h =>
    match pyIndex row ((c.col : Int) - 2) with
    | none => .error .indexError
    | some dc => do
      let sv ← validateAndConvert dc enable fn
      match sv with
      | (true, some cv) =>
        match floatConv cv with
        | .ok n => .ok (.pfloat n, h)
        | .error e => .error (.typeConversion dc cv "float" e fn)
      | _ => .ok (.pnone, h)
  | .hstring _ c, row, enable, fn, h =>
    match pyIndex row ((c.col : Int) - 2) with
    | none => .error .indexError
    | some dc => do
      let sv ← validateAndConvert dc enable fn
      match sv with
      | (true, some cv) => .ok (.pstr (strConv cv), h)
      | _ => .ok (.pnone, h)
  | .hlist _ c id key value, row, enable, fn, h =>
    let h1 := if enable then heapSet h id (.alist []) else h
    match key with
    | none => .error .attributeError
    | some k => do
      let (kv, h2) ← parseDataC k row true fn h1
      match kv with
      | .pnone =>
        match value with
        | none => .error .attributeError
        | some vt => do
          let (_, h3) ← parseDataC vt row false fn h2
          if enable then .ok (.pref id, h3) else .ok (.pnone, h3)
      | kv =>
        match heapGet h2 id with
        | none => .error .attributeError
        | some (.adict _) => .error (.modelGap "list accumulator is a dict")
        | some (.alist acc) =>
          if keyEqLen kv acc.length then
            match value with
            | none => .error .attributeError
            | some vt => do
              let (vv, h3) ← parseDataC vt row true fn h2
              match heapGet h3 id with
              | some (.alist acc3) =>
                let h4 := heapSet h3 id (.alist (acc3 ++ [vv]))
                if enable then .ok (.pref id, h4) else .ok (.pnone, h4)
              | _ => .error .attributeError
          else
            match pyIndex row ((c.col : Int) - 2) with
            | none => .error .indexError
            | some dc => .error (.invalidIndex dc acc.length kv fn)
  | .hdict _ _ id key value, row, enable, fn, h =>
    let h1 := if enable then heapSet h id (.adict []) else h
    match key with
    | none => .error .attributeError
    | some k => do
      let (kv, h2) ← parseDataC k row true fn h1
      match kv with
      | .pnone =>
        match value with
        | none => .error .attributeError
        | some vt => do
          let (_, h3) ← parseDataC vt row false fn h2
          if enable then .ok (.pref id, h3) else .ok (.pnone, h3)
      | kv =>
        match value with
        | none => .error .attributeError
        | some vt => do
          let (vv, h3) ← parseDataC vt row true fn h2
          match heapGet h3 id with
          | some (.adict acc) =>
            let h4 := heapSet h3 id (.adict (updKey acc kv vv))
            if enable then .ok (.pref id, h4) else .ok (.pnone, h4)
          | _ => .error .attributeError
  | .hclass _ _ children, row, enable, fn, h =>
    if enable then do
      let (m, h1) ← parseClassTC children row fn [] h
      .ok (.pdict m, h1)
    else do
      let h1 ← parseClassFC children row fn h
      .ok (.pnone, h1)

/-- The `enable = True` child loop of `HeadClass.parseData` in `HeadType.py`. -/
def parseClassTC : List HeadT → List Cell → Option String →
    List (String × PyVal) → Heap → Except Err (List (String × PyVal) × Heap)
  | [], _, _, acc, h => .ok (acc, h)
  | child :: rest, row, fn, acc, h => do
    let (v, h1) ← parseDataC child row true fn h
    parseClassTC rest row fn (updStr acc child.nameOf v) h1

/-- The `enable = False` child loop of `HeadClass.parseData` in `HeadType.py`. -/
def parseClassFC : List HeadT → List Cell → Option String → Heap →
    Except Err Heap
  | [], _, _, h => .ok h
  | child :: rest, row, fn, h => do
    let (_, h1) ← parseDataC child row false fn h
    parseClassFC rest row fn h1

end

/-- Convenience constructor for cells. -/
def mkCell (r c : Nat) (v : Option CellVal) : Cell := ⟨r, c, v⟩

/-!
Concrete sheets, nodes and rows used to instantiate the claims on explicit
inputs.
-/

/-- Sheet: `#head | t:class` over a merged `tags:list` span with sub-headers
`i:int`, `v:string`, followed by the `#data` row `(0, a)` and the
continuation rows `(1, b)` and `(2, c)`. -/
def sheetTags : List (List Cell) :=
  [ [mkCell 1 1 (some (.vstr "#head")), mkCell 1 2 (some (.vstr "t:class")),
     mkCell 1 3 none],
    [mkCell 2 1 none, mkCell 2 2 (some (.vstr "tags:list")), mkCell 2 3 none],
    [mkCell 3 1 none, mkCell 3 2 (some (.vstr "i:int")),
     mkCell 3 3 (some (.vstr "v:string"))],
    [mkCell 4 1 (some (.vstr "#data")), mkCell 4 2 (some (.vint 0)),
     mkCell 4 3 (some (.vstr "a"))],
    [mkCell 5 1 none, mkCell 5 2 (some (.vint 1)), mkCell 5 3 (some (.vstr "b"))],
    [mkCell 6 1 none, mkCell 6 2 (some (.vint 2)), mkCell 6 3 (some (.vstr "c"))] ]

/-- The merged rectangle B2:C2 making `tags:list` span two columns. -/
def rangesTags : List MergedRange := [⟨2, 2, 2, 3⟩]

/-- Sheet with an integer root and two `#data` rows carrying 1 and 2. -/
def sheetTwoData : List (List Cell) :=
  [ [mkCell 1 1 (some (.vstr "#head")), mkCell 1 2 (some (.vstr "x:int"))],
    [mkCell 2 1 (some (.vstr "#data")), mkCell 2 2 (some (.vint 1))],
    [mkCell 3 1 (some (.vstr "#data")), mkCell 3 2 (some (.vint 2))] ]

/-- Sheet with an integer root whose single `#data` row has an empty value
cell. -/
def sheetEmptyData : List (List Cell) :=
  [ [mkCell 1 1 (some (.vstr "#head")), mkCell 1 2 (some (.vstr "x:int"))],
    [mkCell 2 1 (some (.vstr "#data")), mkCell 2 2 none] ]

/-- A compiled list node: key `i:int` over data column 0, value `v:string`
over data column 1, accumulator identity 0. -/
def listLV : HeadT :=
  .hlist "l" (mkCell 2 2 (some (.vstr "l:list"))) 0
    (some (.hint "i" (mkCell 3 2 (some (.vstr "i:int")))))
    (some (.hstring "v" (mkCell 3 3 (some (.vstr "v:string")))))

/-- A data-row slice carrying an integer key and a string value. -/
def rowKV (k : Int) (s : String) : List Cell :=
  [mkCell 5 2 (some (.vint k)), mkCell 5 3 (some (.vstr s))]

/-- The children of `classDup`: two scalars both named `a`. -/
def dupChildren : List HeadT :=
  [ .hint "a" (mkCell 2 2 (some (.vstr "a:int"))),
    .hstring "a" (mkCell 2 3 (some (.vstr "a:string"))) ]

/-- A record node with two children that share the name `a`. -/
def classDup : HeadT :=
  .hclass "t" (mkCell 1 2 (some (.vstr "t:class"))) dupChildren

/-- A data-row slice for `classDup`: 1 under the first child, `x` under the
second. -/
def rowDup : List Cell :=
  [mkCell 3 2 (some (.vint 1)), mkCell 3 3 (some (.vstr "x"))]

mutual

/-- Node count of a tree (the fuel bound for `parseDataF`). -/
def sizeT : HeadT → Nat
  | .hbase _ _ | .hint _ _ | .hfloat _ _ | .hstring _ _ => 1
  | .hlist _ _ _ key value => 1 + sizeOptT key + sizeOptT value
  | .hdict _ _ _ key value => 1 + sizeOptT key + sizeOptT value
  | .hclass _ _ children => 1 + sizeListT children

/-- Node count of an optional child. -/
def sizeOptT : Option HeadT → Nat
  | none => 0
  | some t => sizeT t

/-- Fuel bound for a children list (one unit per list step plus the
nodes). -/
def sizeListT : List HeadT → Nat
  | [] => 0
  | t :: ts => 1 + sizeT t + sizeListT ts

end

/-!
Computation bridge: a fuel-indexed structural twin of `parseData` whose
recursion the kernel can evaluate.  `parseDataF_eq` below shows the fuel is
irrelevant once it dominates the node size, so every concrete evaluation of
the model can go through these executable forms.
-/

mutual

def parseDataF : Nat → HeadT → List Cell → Bool → Option String → Heap →
    Except Err (PyVal × Heap)
  | 0, _, _, _, _, _ => .error (.modelGap "fuel exhausted")
  | fuel + 1, t, row, enable, fn, h =>
    match t with
    | .hbase _ c =>
      match pyIndex row ((c.col : Int) - 2) with
      | none => .error .indexError
      | some dc =>
        if enable then
          match dc.value with
          | some v => .ok (v.toPy, h)
          | none => .ok (.pnone, h)
        else
          match dc.value with
          | some _ => .error (.unexpectedData dc fn)
          | none => .ok (.pnone, h)
    | .hint _ c =>
      match pyIndex row ((c.col : Int) - 2) with
      | none => .error .indexError
      | some dc => do
        let sv ← validateAndConvert dc enable fn
        match sv with
        | (true, some cv) =>
          match intConv cv with
          | .ok n => .ok (.pint n, h)
          | .error e => .error (.typeConversion dc cv "int" e fn)
        | _ => .ok (.pnone, h)
    | .hfloat _ c =>
      match pyIndex row ((c.col : Int) - 2) with
      | none => .error .indexError
      | some dc => do
        let sv ← validateAndConvert dc enable fn
        match sv with
        | (true, some cv) =>
          match floatConv cv with
          | .ok n => .ok (.pfloat n, h)
          | .error e => .error (.typeConversion dc cv "float" e fn)
        | _ => .ok (.pnone, h)
    | .hstring _ c =>
      match pyIndex row ((c.col : Int) - 2) with
      | none => .error .indexError
      | some dc => do
        let sv ← validateAndConvert dc enable fn
        match sv with
        | (true, some cv) => .ok (.pstr (strConv cv), h)
        | _ => .ok (.pnone, h)
    | .hlist _ c id key value =>
      let h1 := if enable then heapSet h id (.alist []) else h
      match key with
      | none => .error .attributeError
      | some k => do
        let (kv, h2) ← parseDataF fuel k row true fn h1
        match kv with
        | .pnone =>
          match value with
          | none => .error .attributeError
          | some vt => do
            let (_, h3) ← parseDataF fuel vt row false fn h2
            if enable then .ok (.pref id, h3) else .ok (.pnone, h3)
        | kv =>
          match heapGet h2 id with
          | none => .error .attributeError
          | some (.adict _) => .error (.modelGap "list accumulator is a dict")
          | some (.alist acc) =>
            if keyEqLen kv acc.length then
              match value with
              | none => .error .attributeError
              | some vt => do
                let (vv, h3) ← parseDataF fuel vt row true fn h2
                match heapGet h3 id with
                | some (.alist acc3) =>
                  let h4 := heapSet h3 id (.alist (acc3 ++ [vv]))
                  if enable then .ok (.pref id, h4) else .ok (.pnone, h4)
                | _ => .error .attributeError
            else
              match pyIndex row ((c.col : Int) - 2) with
              | none => .error .indexError
              | some dc => .error (.invalidIndex dc acc.length kv fn)
    | .hdict _ _ id key value =>
      let h1 := if enable then heapSet h id (.adict []) else h
      match key with
      | none => .error .attributeError
      | some k => do
        let (kv, h2) ← parseDataF fuel k row true fn h1
        match kv with
        | .pnone =>
          match value with
          | none => .error .attributeError
          | some vt => do
            let (_, h3) ← parseDataF fuel vt row false fn h2
            if enable then .ok (.pref id, h3) else .ok (.pnone, h3)
        | kv =>
          match value with
          | none => .error .attributeError
          | some vt => do
            let (vv, h3) ← parseDataF fuel vt row true fn h2
            match heapGet h3 id with
            | some (.adict acc) =>
              let h4 := heapSet h3 id (.adict (updKey acc kv vv))
              if enable then .ok (.pref id, h4) else .ok (.pnone, h4)
            | _ => .error .attributeError
    | .hclass _ _ children =>
      if enable then do
        let (m, h1) ← parseClassTF fuel children row fn [] h
        .ok (.pdict m, h1)
      else do
        let h1 ← parseClassFF fuel children row fn h
        .ok (.pnone, h1)

def parseClassTF : Nat → List HeadT → List Cell → Option String →
    List (String × PyVal) → Heap → Except Err (List (String × PyVal) × Heap)
  | _, [], _, _, acc, h => .ok (acc, h)
  | 0, _ :: _, _, _, _, _ => .error (.modelGap "fuel exhausted")
  | fuel + 1, child :: rest, row, fn, acc, h => do
    let (v, h1) ← parseDataF fuel child row true fn h
    parseClassTF fuel rest row fn (updStr acc child.nameOf v) h1

def parseClassFF : Nat → List HeadT → List Cell → Option String → Heap →
    Except Err Heap
  | _, [], _, _, h => .ok h
  | 0, _ :: _, _, _, _ => .error (.modelGap "fuel exhausted")
  | fuel + 1, child :: rest, row, fn, h => do
    let (_, h1) ← parseDataF fuel child row false fn h
    parseClassFF fuel rest row fn h1

end


/-- Executable form of `parseData` (the fuel always suffices). -/
def parseDataX (t : HeadT) (row : List Cell) (enable : Bool)
    (fn : Option String) (h : Heap) : Except Err (PyVal × Heap) :=
  parseDataF (sizeT t + 1) t row enable fn h

/-- Executable form of `getRows`. -/
def getRowsX (ranges : List MergedRange) (fn : Option String) :
    List (List Cell) → DState → Except Err DState
  | [], s => .ok s
  | row :: rest, s =>
    match pyIndex row 0 with
    | none => .error .indexError
    | some mc =>
      if mc.value = some (.vstr "#") then getRowsX ranges fn rest s
      else if mc.value = some (.vstr "#data") then
        match parseDataX s.comp.tree (row.drop 1) true fn s.heap with
        | .error e => .error e
        | .ok (v, h2) =>
          getRowsX ranges fn rest { s with isData := true, root := v, heap := h2 }
      else if s.isData then
        match parseDataX s.comp.tree (row.drop 1) false fn s.heap with
        | .error e => .error e
        | .ok (_, h2) => getRowsX ranges fn rest { s with heap := h2 }
      else
        match rowParser ranges fn s.column (row.drop 1) s.comp with
        | .error e => .error e
        | .ok st2 => getRowsX ranges fn rest { s with comp := st2 }

/-- Executable form of `getData`. -/
def getDataX (sheet : List (List Cell)) (ranges : List MergedRange)
    (fn : Option String) : Except Err (PyVal × Heap) :=
  match sheet with
  | [] => .error (.emptyFile fn)
  | firstRow :: rest =>
    match pyIndex firstRow 0 with
    | none => .error .indexError
    | some fc =>
      if fc.value = some (.vstr "#head") then
        match mkHead (firstRow.drop 1) fn with
        | .error e => .error e
        | .ok (column, st0) =>
          match getRowsX ranges fn rest ⟨st0, column, false, .pnone, []⟩ with
          | .error e => .error e
          | .ok s =>
            match s.root with
            | .pnone => .error (.missingDataMarker fn)
            | v => .ok (v, s.heap)
      else .error (.missingHeaderMarker fc (headMarkerText fc.value) fn)

/-- Executable form of `feedRows`. -/
def feedRowsX (t : HeadT) (fn : Option String) :
    List (List Cell) → Heap → Except Err Heap
  | [], h => .ok h
  | r :: rest, h =>
    match parseDataX t r false fn h with
    | .error e => .error e
    | .ok (_, h2) => feedRowsX t fn rest h2

/-- Executable form of `feedList`. -/
def feedListX (t : HeadT) (fn : Option String) (first : List Cell)
    (rest : List (List Cell)) : Except Err (PyVal × Heap) :=
  match parseDataX t first true fn [] with
  | .error e => .error e
  | .ok (v, h1) =>
    match feedRowsX t fn rest h1 with
    | .error e => .error e
    | .ok h2 => .ok (v, h2)

/-- Whether a node is a scalar leaf (no children, no accumulator). -/
def scalarKind : HeadT → Bool
  | .hbase _ _ | .hint _ _ | .hfloat _ _ | .hstring _ _ => true
  | _ => false

/-- Whether an error is the missing-data-marker diagnostic. -/
def Err.isMDM : Err → Bool
  | .missingDataMarker _ => true
  | _ => false

/-!
## Theorems

First the computation-bridge equalities, then general lemmas about the
extractor, then the claims.
-/

/-- Every node has at least one node. -/
theorem one_le_sizeT (t : HeadT) : 1 ≤ sizeT t := by
  cases t <;> simp [sizeT] <;> omega

theorem parseDataF_eq :
    ∀ fuel : Nat,
      (∀ t, sizeT t < fuel → ∀ row enable fn h,
        parseDataF fuel t row enable fn h = parseData t row enable fn h) ∧
      (∀ l : List HeadT, sizeListT l < fuel → ∀ row fn acc h,
        parseClassTF fuel l row fn acc h = parseClassT l row fn acc h) ∧
      (∀ l : List HeadT, sizeListT l < fuel → ∀ row fn h,
        parseClassFF fuel l row fn h = parseClassF l row fn h) := by
  intro fuel
  induction fuel with
  | zero =>
    exact ⟨fun t hle => absurd hle (Nat.not_lt_zero _),
      fun l hle => absurd hle (Nat.not_lt_zero _),
      fun l hle => absurd hle (Nat.not_lt_zero _)⟩
  | succ fuel ih =>
    obtain ⟨ihA, ihB, ihC⟩ := ih
    refine ⟨?_, ?_, ?_⟩
    · intro t hle row enable fn h
      cases t with
      | hbase n c => simp only [parseDataF, parseData]
      | hint n c => simp only [parseDataF, parseData]
      | hfloat n c => simp only [parseDataF, parseData]
      | hstring n c => simp only [parseDataF, parseData]
      | hlist n c id key value =>
        cases key with
        | none => simp only [parseDataF, parseData]
        | some k =>
          have hk : sizeT k < fuel := by
            cases value <;> simp [sizeT, sizeOptT] at hle <;> omega
          cases value with
          | none =>
            simp only [parseDataF, parseData, ihA k hk]
          | some vt =>
            have hv : sizeT vt < fuel := by
              simp [sizeT, sizeOptT] at hle; omega
            simp only [parseDataF, parseData, ihA k hk, ihA vt hv]
      | hdict n c id key value =>
        cases key with
        | none => simp only [parseDataF, parseData]
        | some k =>
          have hk : sizeT k < fuel := by
            cases value <;> simp [sizeT, sizeOptT] at hle <;> omega
          cases value with
          | none =>
            simp only [parseDataF, parseData, ihA k hk]
          | some vt =>
            have hv : sizeT vt < fuel := by
              simp [sizeT, sizeOptT] at hle; omega
            simp only [parseDataF, parseData, ihA k hk, ihA vt hv]
      | hclass n c children =>
        have hc : sizeListT children < fuel := by simp [sizeT] at hle; omega
        simp only [parseDataF, parseData, ihB children hc, ihC children hc]
    · intro l hle row fn acc h
      cases l with
      | nil => rfl
      | cons child rest =>
        have h1 : sizeT child < fuel := by simp [sizeListT] at hle; omega
        have h2 : sizeListT rest < fuel := by simp [sizeListT] at hle; omega
        simp only [parseClassTF, parseClassT, ihA child h1, ihB rest h2]
    · intro l hle row fn h
      cases l with
      | nil => rfl
      | cons child rest =>
        have h1 : sizeT child < fuel := by simp [sizeListT] at hle; omega
        have h2 : sizeListT rest < fuel := by simp [sizeListT] at hle; omega
        simp only [parseClassFF, parseClassF, ihA child h1, ihC rest h2]

/-- The executable extractor agrees with the embedded one. -/
theorem parseDataX_eq (t : HeadT) (row : List Cell) (enable : Bool)
    (fn : Option String) (h : Heap) :
    parseDataX t row enable fn h = parseData t row enable fn h :=
  (parseDataF_eq (sizeT t + 1)).1 t (Nat.lt_succ_self _) row enable fn h

/-- The executable row loop agrees with the embedded one. -/
theorem getRowsX_eq (ranges : List MergedRange) (fn : Option String) :
    ∀ rows s, getRowsX ranges fn rows s = getRows ranges fn rows s := by
  intro rows
  induction rows with
  | nil => intro s; rfl
  | cons row rest ih =>
    intro s
    simp only [getRowsX, getRows, parseDataX_eq, ih]

/-- The executable driver agrees with the embedded one. -/
theorem getDataX_eq (sheet : List (List Cell)) (ranges : List MergedRange)
    (fn : Option String) : getDataX sheet ranges fn = getData sheet ranges fn := by
  simp only [getDataX, getData, getRowsX_eq]

/-- The executable replay loop agrees with the embedded one. -/
theorem feedRowsX_eq (t : HeadT) (fn : Option String) :
    ∀ rows h, feedRowsX t fn rows h = feedRows t fn rows h := by
  intro rows
  induction rows with
  | nil => intro h; rfl
  | cons r rest ih =>
    intro h
    simp only [feedRowsX, feedRows, parseDataX_eq, ih]

/-- The executable instance run agrees with the embedded one. -/
theorem feedListX_eq (t : HeadT) (fn : Option String) (first : List Cell)
    (rest : List (List Cell)) :
    feedListX t fn first rest = feedList t fn first rest := by
  simp only [feedListX, feedList, parseDataX_eq, feedRowsX_eq]

/-- Reading after an in-place assignment at the same identifier. -/
theorem heapGet_heapSet_self (h : Heap) (i : Nat) (a : Accum) :
    heapGet (heapSet h i a) i = some a := by
  induction h with
  | nil => simp [heapSet, heapGet]
  | cons p rest ih =>
    rcases p with ⟨j, b⟩
    by_cases hj : j = i <;> simp [heapSet, heapGet, hj, ih]

/-- Assignment at one identifier leaves the others unread. -/
theorem heapGet_heapSet_ne (h : Heap) (i j : Nat) (a : Accum) (hij : j ≠ i) :
    heapGet (heapSet h i a) j = heapGet h j := by
  induction h with
  | nil => simp [heapSet, heapGet, Ne.symm hij]
  | cons p rest ih =>
    rcases p with ⟨j0, b⟩
    by_cases hj : j0 = i
    · subst hj
      simp [heapSet, heapGet, Ne.symm hij]
    · simp [heapSet, heapGet, hj, ih]

/-- Assignment never removes an attribute. -/
theorem heapSet_domMono (h : Heap) (i j : Nat) (a c : Accum)
    (hi : heapGet h i = some a) : ∃ b, heapGet (heapSet h j c) i = some b := by
  by_cases hij : i = j
  · subst hij; exact ⟨c, heapGet_heapSet_self h i c⟩
  · exact ⟨a, by rw [heapGet_heapSet_ne h j i c hij]; exact hi⟩

/-- A scalar leaf's `parse_data` neither reads nor writes the accumulator
heap: its outcome over any heap is its outcome over the empty heap with the
heap passed through. -/
theorem scalar_parse (t : HeadT) (hs : scalarKind t = true)
    (row : List Cell) (enable : Bool) (fn : Option String) (h : Heap) :
    parseData t row enable fn h =
      (parseData t row enable fn []).map (fun p => (p.1, h)) := by
  cases t with
  | hbase nm c =>
    simp only [parseData]
    rcases hpi : pyIndex row ((c.col : Int) - 2) with _ | dc
    · rfl
    · rcases hdv : dc.value with _ | cv <;> cases enable <;> simp [hdv, Except.map]
  | hint nm c =>
    simp only [parseData, bind, Except.bind]
    rcases hpi : pyIndex row ((c.col : Int) - 2) with _ | dc
    · rfl
    · rcases hvc : validateAndConvert dc enable fn with e | ⟨b, ov⟩
      · simp [hvc, Except.map]
      · rcases b with _ | _ <;> rcases ov with _ | cv <;> simp [hvc, Except.map]
        rcases hic : intConv cv with e0 | n0 <;> simp [hic, Except.map]
  | hfloat nm c =>
    simp only [parseData, bind, Except.bind]
    rcases hpi : pyIndex row ((c.col : Int) - 2) with _ | dc
    · rfl
    · rcases hvc : validateAndConvert dc enable fn with e | ⟨b, ov⟩
      · simp [hvc, Except.map]
      · rcases b with _ | _ <;> rcases ov with _ | cv <;> simp [hvc, Except.map]
        rcases hic : floatConv cv with e0 | n0 <;> simp [hic, Except.map]
  | hstring nm c =>
    simp only [parseData, bind, Except.bind]
    rcases hpi : pyIndex row ((c.col : Int) - 2) with _ | dc
    · rfl
    · rcases hvc : validateAndConvert dc enable fn with e | ⟨b, ov⟩
      · simp [hvc, Except.map]
      · rcases b with _ | _ <;> rcases ov with _ | cv <;> simp [hvc, Except.map]
  | hlist nm c id key value => simp [scalarKind] at hs
  | hdict nm c id key value => simp [scalarKind] at hs
  | hclass nm c children => simp [scalarKind] at hs

/-- Heap effects of `parse_data`: a successful call touches no accumulator
outside the node's own container identities (the frame property), and never
removes an existing accumulator attribute. -/
theorem parseData_heapEffects :
    ∀ n : Nat,
      (∀ t, sizeT t < n → ∀ row enable fn h v h2,
        parseData t row enable fn h = .ok (v, h2) →
        (∀ i, i ∉ idsOf t → heapGet h2 i = heapGet h i) ∧
        (∀ i a, heapGet h i = some a → ∃ b, heapGet h2 i = some b)) ∧
      (∀ l : List HeadT, sizeListT l < n → ∀ row fn acc h m h2,
        parseClassT l row fn acc h = .ok (m, h2) →
        (∀ i, i ∉ idsList l → heapGet h2 i = heapGet h i) ∧
        (∀ i a, heapGet h i = some a → ∃ b, heapGet h2 i = some b)) ∧
      (∀ l : List HeadT, sizeListT l < n → ∀ row fn h h2,
        parseClassF l row fn h = .ok h2 →
        (∀ i, i ∉ idsList l → heapGet h2 i = heapGet h i) ∧
        (∀ i a, heapGet h i = some a → ∃ b, heapGet h2 i = some b)) := by
  intro n
  induction n with
  | zero =>
    exact ⟨fun t hle => absurd hle (Nat.not_lt_zero _),
      fun l hle => absurd hle (Nat.not_lt_zero _),
      fun l hle => absurd hle (Nat.not_lt_zero _)⟩
  | succ n ih =>
    obtain ⟨ihA, ihB, ihC⟩ := ih
    refine ⟨?_, ?_, ?_⟩
    · intro t hlt row enable fn h v h2 hp
      cases t with
      | hbase nm c =>
        rw [scalar_parse (.hbase nm c) rfl] at hp
        rcases hx : parseData (.hbase nm c) row enable fn [] with e | p <;>
          simp [hx, Except.map] at hp
        obtain ⟨-, hh⟩ := hp
        subst hh
        exact ⟨fun i _ => rfl, fun i a ha => ⟨a, ha⟩⟩
      | hint nm c =>
        rw [scalar_parse (.hint nm c) rfl] at hp
        rcases hx : parseData (.hint nm c) row enable fn [] with e | p <;>
          simp [hx, Except.map] at hp
        obtain ⟨-, hh⟩ := hp
        subst hh
        exact ⟨fun i _ => rfl, fun i a ha => ⟨a, ha⟩⟩
      | hfloat nm c =>
        rw [scalar_parse (.hfloat nm c) rfl] at hp
        rcases hx : parseData (.hfloat nm c) row enable fn [] with e | p <;>
          simp [hx, Except.map] at hp
        obtain ⟨-, hh⟩ := hp
        subst hh
        exact ⟨fun i _ => rfl, fun i a ha => ⟨a, ha⟩⟩
      | hstring nm c =>
        rw [scalar_parse (.hstring nm c) rfl] at hp
        rcases hx : parseData (.hstring nm c) row enable fn [] with e | p <;>
          simp [hx, Except.map] at hp
        obtain ⟨-, hh⟩ := hp
        subst hh
        exact ⟨fun i _ => rfl, fun i a ha => ⟨a, ha⟩⟩
      | hlist nm c id key value =>
        cases key with
        | none => simp [parseData] at hp
        | some k =>
          have hklt : sizeT k < n := by
            have h1 := one_le_sizeT k
            cases value <;> simp [sizeT, sizeOptT] at hlt <;> omega
          simp only [parseData, bind, Except.bind] at hp
          set h1 := (if enable = true then heapSet h id (Accum.alist []) else h)
            with hh1
          have hfr1 : ∀ i, i ≠ id → heapGet h1 i = heapGet h i := by
            intro i hne
            rw [hh1]
            cases enable
            · rfl
            · simp only [if_pos rfl]
              exact heapGet_heapSet_ne h id i _ hne
          have hdm1 : ∀ i a, heapGet h i = some a → ∃ b, heapGet h1 i = some b := by
            intro i a ha
            rw [hh1]
            cases enable
            · exact ⟨a, ha⟩
            · simp only [if_pos rfl]
              exact heapSet_domMono h i id a _ ha
          rcases hk : parseData k row true fn h1 with e | ⟨kv, h2k⟩
          · rw [hk] at hp; exact absurd hp (by simp)
          · rw [hk] at hp
            have hKeff := ihA k hklt row true fn h1 kv h2k hk
            cases kv with
            | pnone =>
              cases value with
              | none => simp at hp
              | some vt =>
                have hvlt : sizeT vt < n := by
                  have h1k := one_le_sizeT k
                  simp [sizeT, sizeOptT] at hlt
                  omega
                rcases hv : parseData vt row false fn h2k with e | ⟨x, h3⟩
                · simp [hv] at hp
                · simp only [hv] at hp
                  have hVeff := ihA vt hvlt row false fn h2k x h3 hv
                  have hh2 : h2 = h3 := by
                    cases enable <;> simp at hp <;> exact hp.2.symm
                  subst hh2
                  constructor
                  · intro i hi
                    simp [idsOf, idsOpt] at hi
                    rw [hVeff.1 i (by tauto),
                      hKeff.1 i (by tauto), hfr1 i (by tauto)]
                  · intro i a ha
                    obtain ⟨b1, hb1⟩ := hdm1 i a ha
                    obtain ⟨b2, hb2⟩ := hKeff.2 i b1 hb1
                    exact hVeff.2 i b2 hb2
            | pint kn =>
              rcases hga : heapGet h2k id with _ | a
              · simp [hga] at hp
              · cases a with
                | adict es => simp [hga] at hp
                | alist acc =>
                  by_cases hkey : keyEqLen (.pint kn) acc.length = true
                  · simp only [hga, hkey, if_pos rfl] at hp
                    cases value with
                    | none => simp at hp
                    | some vt =>
                      have hvlt : sizeT vt < n := by
                        have h1k := one_le_sizeT k
                        simp [sizeT, sizeOptT] at hlt
                        omega
                      rcases hv : parseData vt row true fn h2k with e | ⟨vv, h3⟩
                      · simp [hv] at hp
                      · simp only [hv] at hp
                        have hVeff := ihA vt hvlt row true fn h2k vv h3 hv
                        rcases hga3 : heapGet h3 id with _ | a3
                        · simp [hga3] at hp
                        · cases a3 with
                          | adict es => simp [hga3] at hp
                          | alist acc3 =>
                            simp only [hga3] at hp
                            have hh2 : h2 = heapSet h3 id (.alist (acc3 ++ [vv])) := by
                              cases enable <;> simp at hp <;> exact hp.2.symm
                            subst hh2
                            constructor
                            · intro i hi
                              simp [idsOf, idsOpt] at hi
                              rw [heapGet_heapSet_ne h3 id i _ (by tauto),
                                hVeff.1 i (by tauto),
                                hKeff.1 i (by tauto), hfr1 i (by tauto)]
                            · intro i a ha
                              obtain ⟨b1, hb1⟩ := hdm1 i a ha
                              obtain ⟨b2, hb2⟩ := hKeff.2 i b1 hb1
                              obtain ⟨b3, hb3⟩ := hVeff.2 i b2 hb2
                              exact heapSet_domMono h3 i id b3 _ hb3
                  · simp only [hga, hkey, if_neg] at hp
                    rcases hpi : pyIndex row ((c.col : Int) - 2) with _ | dc <;>
                      simp [hpi, Bool.not_eq_true _ ▸ hkey] at hp
            | pfloat kn =>
              rcases hga : heapGet h2k id with _ | a
              · simp [hga] at hp
              · cases a with
                | adict es => simp [hga] at hp
                | alist acc =>
                  by_cases hkey : keyEqLen (.pfloat kn) acc.length = true
                  · simp only [hga, hkey, if_pos rfl] at hp
                    cases value with
                    | none => simp at hp
                    | some vt =>
                      have hvlt : sizeT vt < n := by
                        have h1k := one_le_sizeT k
                        simp [sizeT, sizeOptT] at hlt
                        omega
                      rcases hv : parseData vt row true fn h2k with e | ⟨vv, h3⟩
                      · simp [hv] at hp
                      · simp only [hv] at hp
                        have hVeff := ihA vt hvlt row true fn h2k vv h3 hv
                        rcases hga3 : heapGet h3 id with _ | a3
                        · simp [hga3] at hp
                        · cases a3 with
                          | adict es => simp [hga3] at hp
                          | alist acc3 =>
                            simp only [hga3] at hp
                            have hh2 : h2 = heapSet h3 id (.alist (acc3 ++ [vv])) := by
                              cases enable <;> simp at hp <;> exact hp.2.symm
                            subst hh2
                            constructor
                            · intro i hi
                              simp [idsOf, idsOpt] at hi
                              rw [heapGet_heapSet_ne h3 id i _ (by tauto),
                                hVeff.1 i (by tauto),
                                hKeff.1 i (by tauto), hfr1 i (by tauto)]
                            · intro i a ha
                              obtain ⟨b1, hb1⟩ := hdm1 i a ha
                              obtain ⟨b2, hb2⟩ := hKeff.2 i b1 hb1
                              obtain ⟨b3, hb3⟩ := hVeff.2 i b2 hb2
                              exact heapSet_domMono h3 i id b3 _ hb3
                  · simp only [hga, hkey, if_neg] at hp
                    rcases hpi : pyIndex row ((c.col : Int) - 2) with _ | dc <;>
                      simp [hpi, Bool.not_eq_true _ ▸ hkey] at hp
            | pstr ks =>
              rcases hga : heapGet h2k id with _ | a
              · simp [hga] at hp
              · cases a with
                | adict es => simp [hga] at hp
                | alist acc =>
                  have hkey : keyEqLen (.pstr ks) acc.length = false := rfl
                  simp only [hga, hkey] at hp
                  rcases hpi : pyIndex row ((c.col : Int) - 2) with _ | dc <;>
                    simp [hpi] at hp
            | pref kr =>
              rcases hga : heapGet h2k id with _ | a
              · simp [hga] at hp
              · cases a with
                | adict es => simp [hga] at hp
                | alist acc =>
                  have hkey : keyEqLen (.pref kr) acc.length = false := rfl
                  simp only [hga, hkey] at hp
                  rcases hpi : pyIndex row ((c.col : Int) - 2) with _ | dc <;>
                    simp [hpi] at hp
            | pdict kes =>
              rcases hga : heapGet h2k id with _ | a
              · simp [hga] at hp
              · cases a with
                | adict es => simp [hga] at hp
                | alist acc =>
                  have hkey : keyEqLen (.pdict kes) acc.length = false := rfl
                  simp only [hga, hkey] at hp
                  rcases hpi : pyIndex row ((c.col : Int) - 2) with _ | dc <;>
                    simp [hpi] at hp
      | hdict nm c id key value =>
        cases key with
        | none => simp [parseData] at hp
        | some k =>
          have hklt : sizeT k < n := by
            have h1 := one_le_sizeT k
            cases value <;> simp [sizeT, sizeOptT] at hlt <;> omega
          simp only [parseData, bind, Except.bind] at hp
          set h1 := (if enable = true then heapSet h id (Accum.adict []) else h)
            with hh1
          have hfr1 : ∀ i, i ≠ id → heapGet h1 i = heapGet h i := by
            intro i hne
            rw [hh1]
            cases enable
            · rfl
            · simp only [if_pos rfl]
              exact heapGet_heapSet_ne h id i _ hne
          have hdm1 : ∀ i a, heapGet h i = some a → ∃ b, heapGet h1 i = some b := by
            intro i a ha
            rw [hh1]
            cases enable
            · exact ⟨a, ha⟩
            · simp only [if_pos rfl]
              exact heapSet_domMono h i id a _ ha
          rcases hk : parseData k row true fn h1 with e | ⟨kv, h2k⟩
          · rw [hk] at hp; exact absurd hp (by simp)
          · rw [hk] at hp
            have hKeff := ihA k hklt row true fn h1 kv h2k hk
            have hvlt : value = none ∨ ∀ vt, value = some vt → sizeT vt < n := by
              cases value with
              | none => exact Or.inl rfl
              | some vt0 =>
                refine Or.inr fun vt hvt => ?_
                injection hvt with hvt
                subst hvt
                have h1k := one_le_sizeT k
                simp [sizeT, sizeOptT] at hlt
                omega
            cases kv with
            | pnone =>
              cases value with
              | none => simp at hp
              | some vt =>
                have hvlt2 : sizeT vt < n := by
                  rcases hvlt with h0 | h0
                  · cases h0
                  · exact h0 vt rfl
                rcases hv : parseData vt row false fn h2k with e | ⟨x, h3⟩
                · simp [hv] at hp
                · simp only [hv] at hp
                  have hVeff := ihA vt hvlt2 row false fn h2k x h3 hv
                  have hh2 : h2 = h3 := by
                    cases enable <;> simp at hp <;> exact hp.2.symm
                  subst hh2
                  constructor
                  · intro i hi
                    simp [idsOf, idsOpt] at hi
                    rw [hVeff.1 i (by tauto),
                      hKeff.1 i (by tauto), hfr1 i (by tauto)]
                  · intro i a ha
                    obtain ⟨b1, hb1⟩ := hdm1 i a ha
                    obtain ⟨b2, hb2⟩ := hKeff.2 i b1 hb1
                    exact hVeff.2 i b2 hb2
            | pint kn =>
              cases value with
              | none => simp at hp
              | some vt =>
                have hvlt2 : sizeT vt < n := by
                  rcases hvlt with h0 | h0
                  · cases h0
                  · exact h0 vt rfl
                rcases hv : parseData vt row true fn h2k with e | ⟨vv, h3⟩
                · simp [hv] at hp
                · simp only [hv] at hp
                  have hVeff := ihA vt hvlt2 row true fn h2k vv h3 hv
                  rcases hga3 : heapGet h3 id with _ | a3
                  · simp [hga3] at hp
                  · cases a3 with
                    | alist xs => simp [hga3] at hp
                    | adict acc =>
                      simp only [hga3] at hp
                      have hh2 : h2 = heapSet h3 id (.adict (updKey acc (.pint kn) vv)) := by
                        cases enable <;> simp at hp <;> exact hp.2.symm
                      subst hh2
                      constructor
                      · intro i hi
                        simp [idsOf, idsOpt] at hi
                        rw [heapGet_heapSet_ne h3 id i _ (by tauto),
                          hVeff.1 i (by tauto),
                          hKeff.1 i (by tauto), hfr1 i (by tauto)]
                      · intro i a ha
                        obtain ⟨b1, hb1⟩ := hdm1 i a ha
                        obtain ⟨b2, hb2⟩ := hKeff.2 i b1 hb1
                        obtain ⟨b3, hb3⟩ := hVeff.2 i b2 hb2
                        exact heapSet_domMono h3 i id b3 _ hb3
            | pfloat kn =>
              cases value with
              | none => simp at hp
              | some vt =>
                have hvlt2 : sizeT vt < n := by
                  rcases hvlt with h0 | h0
                  · cases h0
                  · exact h0 vt rfl
                rcases hv : parseData vt row true fn h2k with e | ⟨vv, h3⟩
                · simp [hv] at hp
                · simp only [hv] at hp
                  have hVeff := ihA vt hvlt2 row true fn h2k vv h3 hv
                  rcases hga3 : heapGet h3 id with _ | a3
                  · simp [hga3] at hp
                  · cases a3 with
                    | alist xs => simp [hga3] at hp
                    | adict acc =>
                      simp only [hga3] at hp
                      have hh2 : h2 = heapSet h3 id (.adict (updKey acc (.pfloat kn) vv)) := by
                        cases enable <;> simp at hp <;> exact hp.2.symm
                      subst hh2
                      constructor
                      · intro i hi
                        simp [idsOf, idsOpt] at hi
                        rw [heapGet_heapSet_ne h3 id i _ (by tauto),
                          hVeff.1 i (by tauto),
                          hKeff.1 i (by tauto), hfr1 i (by tauto)]
                      · intro i a ha
                        obtain ⟨b1, hb1⟩ := hdm1 i a ha
                        obtain ⟨b2, hb2⟩ := hKeff.2 i b1 hb1
                        obtain ⟨b3, hb3⟩ := hVeff.2 i b2 hb2
                        exact heapSet_domMono h3 i id b3 _ hb3
            | pstr ks =>
              cases value with
              | none => simp at hp
              | some vt =>
                have hvlt2 : sizeT vt < n := by
                  rcases hvlt with h0 | h0
                  · cases h0
                  · exact h0 vt rfl
                rcases hv : parseData vt row true fn h2k with e | ⟨vv, h3⟩
                · simp [hv] at hp
                · simp only [hv] at hp
                  have hVeff := ihA vt hvlt2 row true fn h2k vv h3 hv
                  rcases hga3 : heapGet h3 id with _ | a3
                  · simp [hga3] at hp
                  · cases a3 with
                    | alist xs => simp [hga3] at hp
                    | adict acc =>
                      simp only [hga3] at hp
                      have hh2 : h2 = heapSet h3 id (.adict (updKey acc (.pstr ks) vv)) := by
                        cases enable <;> simp at hp <;> exact hp.2.symm
                      subst hh2
                      constructor
                      · intro i hi
                        simp [idsOf, idsOpt] at hi
                        rw [heapGet_heapSet_ne h3 id i _ (by tauto),
                          hVeff.1 i (by tauto),
                          hKeff.1 i (by tauto), hfr1 i (by tauto)]
                      · intro i a ha
                        obtain ⟨b1, hb1⟩ := hdm1 i a ha
                        obtain ⟨b2, hb2⟩ := hKeff.2 i b1 hb1
                        obtain ⟨b3, hb3⟩ := hVeff.2 i b2 hb2
                        exact heapSet_domMono h3 i id b3 _ hb3
            | pref kr =>
              cases value with
              | none => simp at hp
              | some vt =>
                have hvlt2 : sizeT vt < n := by
                  rcases hvlt with h0 | h0
                  · cases h0
                  · exact h0 vt rfl
                rcases hv : parseData vt row true fn h2k with e | ⟨vv, h3⟩
                · simp [hv] at hp
                · simp only [hv] at hp
                  have hVeff := ihA vt hvlt2 row true fn h2k vv h3 hv
                  rcases hga3 : heapGet h3 id with _ | a3
                  · simp [hga3] at hp
                  · cases a3 with
                    | alist xs => simp [hga3] at hp
                    | adict acc =>
                      simp only [hga3] at hp
                      have hh2 : h2 = heapSet h3 id (.adict (updKey acc (.pref kr) vv)) := by
                        cases enable <;> simp at hp <;> exact hp.2.symm
                      subst hh2
                      constructor
                      · intro i hi
                        simp [idsOf, idsOpt] at hi
                        rw [heapGet_heapSet_ne h3 id i _ (by tauto),
                          hVeff.1 i (by tauto),
                          hKeff.1 i (by tauto), hfr1 i (by tauto)]
                      · intro i a ha
                        obtain ⟨b1, hb1⟩ := hdm1 i a ha
                        obtain ⟨b2, hb2⟩ := hKeff.2 i b1 hb1
                        obtain ⟨b3, hb3⟩ := hVeff.2 i b2 hb2
                        exact heapSet_domMono h3 i id b3 _ hb3
            | pdict kes =>
              cases value with
              | none => simp at hp
              | some vt =>
                have hvlt2 : sizeT vt < n := by
                  rcases hvlt with h0 | h0
                  · cases h0
                  · exact h0 vt rfl
                rcases hv : parseData vt row true fn h2k with e | ⟨vv, h3⟩
                · simp [hv] at hp
                · simp only [hv] at hp
                  have hVeff := ihA vt hvlt2 row true fn h2k vv h3 hv
                  rcases hga3 : heapGet h3 id with _ | a3
                  · simp [hga3] at hp
                  · cases a3 with
                    | alist xs => simp [hga3] at hp
                    | adict acc =>
                      simp only [hga3] at hp
                      have hh2 : h2 = heapSet h3 id (.adict (updKey acc (.pdict kes) vv)) := by
                        cases enable <;> simp at hp <;> exact hp.2.symm
                      subst hh2
                      constructor
                      · intro i hi
                        simp [idsOf, idsOpt] at hi
                        rw [heapGet_heapSet_ne h3 id i _ (by tauto),
                          hVeff.1 i (by tauto),
                          hKeff.1 i (by tauto), hfr1 i (by tauto)]
                      · intro i a ha
                        obtain ⟨b1, hb1⟩ := hdm1 i a ha
                        obtain ⟨b2, hb2⟩ := hKeff.2 i b1 hb1
                        obtain ⟨b3, hb3⟩ := hVeff.2 i b2 hb2
                        exact heapSet_domMono h3 i id b3 _ hb3
      | hclass nm c children =>
        have hclt : sizeListT children < n := by
          simp [sizeT] at hlt; omega
        simp only [parseData, bind, Except.bind] at hp
        cases enable with
        | true =>
          rcases hct : parseClassT children row fn [] h with e | ⟨m, h3⟩
          · simp [hct] at hp
          · simp only [hct] at hp
            simp at hp
            obtain ⟨-, hh⟩ := hp
            subst hh
            have heff := ihB children hclt row fn [] h m h3 hct
            exact ⟨fun i hi => heff.1 i (by simpa [idsOf] using hi), heff.2⟩
        | false =>
          rcases hcf : parseClassF children row fn h with e | h3
          · simp [hcf] at hp
          · simp only [hcf] at hp
            simp at hp
            obtain ⟨-, hh⟩ := hp
            subst hh
            have heff := ihC children hclt row fn h h3 hcf
            exact ⟨fun i hi => heff.1 i (by simpa [idsOf] using hi), heff.2⟩
    · intro l hlt row fn acc h m h2 hp
      cases l with
      | nil =>
        simp [parseClassT] at hp
        obtain ⟨-, hh⟩ := hp
        subst hh
        exact ⟨fun i _ => rfl, fun i a ha => ⟨a, ha⟩⟩
      | cons child rest =>
        have hch : sizeT child < n := by simp [sizeListT] at hlt; omega
        have hre : sizeListT rest < n := by simp [sizeListT] at hlt; omega
        simp only [parseClassT, bind, Except.bind] at hp
        rcases hc : parseData child row true fn h with e | ⟨v1, hh1⟩
        · simp [hc] at hp
        · simp only [hc] at hp
          have heff1 := ihA child hch row true fn h v1 hh1 hc
          have heff2 := ihB rest hre row fn (updStr acc child.nameOf v1) hh1 m h2 hp
          constructor
          · intro i hi
            simp [idsList] at hi
            rw [heff2.1 i (by tauto), heff1.1 i (by tauto)]
          · intro i a ha
            obtain ⟨b1, hb1⟩ := heff1.2 i a ha
            exact heff2.2 i b1 hb1
    · intro l hlt row fn h h2 hp
      cases l with
      | nil =>
        simp [parseClassF] at hp
        subst hp
        exact ⟨fun i _ => rfl, fun i a ha => ⟨a, ha⟩⟩
      | cons child rest =>
        have hch : sizeT child < n := by simp [sizeListT] at hlt; omega
        have hre : sizeListT rest < n := by simp [sizeListT] at hlt; omega
        simp only [parseClassF, bind, Except.bind] at hp
        rcases hc : parseData child row false fn h with e | ⟨v1, hh1⟩
        · simp [hc] at hp
        · simp only [hc] at hp
          have heff1 := ihA child hch row false fn h v1 hh1 hc
          have heff2 := ihC rest hre row fn hh1 h2 hp
          constructor
          · intro i hi
            simp [idsList] at hi
            rw [heff2.1 i (by tauto), heff1.1 i (by tauto)]
          · intro i a ha
            obtain ⟨b1, hb1⟩ := heff1.2 i a ha
            exact heff2.2 i b1 hb1

/-- Frame property: a successful `parse_data` leaves every accumulator
outside the node's own container identities untouched. -/
theorem parseData_frame (t : HeadT) (row : List Cell) (enable : Bool)
    (fn : Option String) (h : Heap) (v : PyVal) (h2 : Heap)
    (hp : parseData t row enable fn h = .ok (v, h2)) (i : Nat)
    (hi : i ∉ idsOf t) : heapGet h2 i = heapGet h i :=
  ((parseData_heapEffects (sizeT t + 1)).1 t (Nat.lt_succ_self _) row enable fn
    h v h2 hp).1 i hi

/-- A successful `parse_data` never deletes an accumulator attribute. -/
theorem parseData_domMono (t : HeadT) (row : List Cell) (enable : Bool)
    (fn : Option String) (h : Heap) (v : PyVal) (h2 : Heap)
    (hp : parseData t row enable fn h = .ok (v, h2)) (i : Nat) (a : Accum)
    (ha : heapGet h i = some a) : ∃ b, heapGet h2 i = some b :=
  ((parseData_heapEffects (sizeT t + 1)).1 t (Nat.lt_succ_self _) row enable fn
    h v h2 hp).2 i a ha

/-- C4: `head_creator` requires a `:` separator — its absence is an
invalid-header-format error whose message names the offending cell text; a
type name outside the registry {int, string, float, list, dict, class} is an
invalid-type-name error listing that registry; every registered type name
instantiates exactly the corresponding node variant, which keeps the header
cell, hence `column = cell.column − 2`. -/
theorem c4_head_creator (cell : Cell) (fn : Option String) (freshId : Nat) :
    (splitAtColon (headCellText cell).toList = none →
      headCreator cell fn freshId =
        .error (.invalidHeaderFormat cell
          ("Header must be in format name:type, got: " ++ headCellText cell) fn)) ∧
    (∀ pre post, splitAtColon (headCellText cell).toList = some (pre, post) →
      (String.mk post ∉ typeNames →
        headCreator cell fn freshId =
          .error (.invalidTypeName cell (String.mk post) typeNames fn)) ∧
      (String.mk post = "int" →
        headCreator cell fn freshId = .ok (.hint (String.mk pre) cell)) ∧
      (String.mk post = "string" →
        headCreator cell fn freshId = .ok (.hstring (String.mk pre) cell)) ∧
      (String.mk post = "float" →
        headCreator cell fn freshId = .ok (.hfloat (String.mk pre) cell)) ∧
      (String.mk post = "list" →
        headCreator cell fn freshId = .ok (.hlist (String.mk pre) cell freshId none none)) ∧
      (String.mk post = "dict" →
        headCreator cell fn freshId = .ok (.hdict (String.mk pre) cell freshId none none)) ∧
      (String.mk post = "class" →
        headCreator cell fn freshId = .ok (.hclass (String.mk pre) cell []))) ∧
    (∀ t, headCreator cell fn freshId = .ok t → t.colOf = (cell.col : Int) - 2) := by
  refine ⟨?_, ?_, ?_⟩
  · intro hnone
    simp only [headCreator, hnone]
  · intro pre post hs
    refine ⟨?_, ?_, ?_, ?_, ?_, ?_, ?_⟩
    · intro hmem
      simp only [typeNames, List.mem_cons, List.not_mem_nil, or_false] at hmem
      push_neg at hmem
      obtain ⟨h1, h2, h3, h4, h5, h6⟩ := hmem
      simp only [headCreator, hs, if_neg h1, if_neg h2, if_neg h3, if_neg h4,
        if_neg h5, if_neg h6]
    · intro he
      simp only [headCreator, hs, if_pos he]
    · intro he
      simp only [headCreator, hs]
      rw [if_neg (by rw [he]; decide), if_pos he]
    · intro he
      simp only [headCreator, hs]
      rw [if_neg (by rw [he]; decide), if_neg (by rw [he]; decide), if_pos he]
    · intro he
      simp only [headCreator, hs]
      rw [if_neg (by rw [he]; decide), if_neg (by rw [he]; decide),
        if_neg (by rw [he]; decide), if_pos he]
    · intro he
      simp only [headCreator, hs]
      rw [if_neg (by rw [he]; decide), if_neg (by rw [he]; decide),
        if_neg (by rw [he]; decide), if_neg (by rw [he]; decide), if_pos he]
    · intro he
      simp only [headCreator, hs]
      rw [if_neg (by rw [he]; decide), if_neg (by rw [he]; decide),
        if_neg (by rw [he]; decide), if_neg (by rw [he]; decide),
        if_neg (by rw [he]; decide), if_pos he]
  · intro t h
    simp only [headCreator] at h
    rcases hsp : splitAtColon (headCellText cell).toList with _ | ⟨pre, post⟩ <;>
      rw [hsp] at h
    · exact absurd h (by simp)
    · repeat' split at h
      all_goals simp at h
      all_goals (subst h; simp [HeadT.colOf, HeadT.cellOf])

/-- C5: each scalar leaf (Int, Float, String) behaves per the shared scalar
contract on a row whose cell at the node's column exists: with the flag set,
a present value is converted and returned and an empty cell is absent; a
conversion failure raises a type-conversion error carrying the cell, raw
value, target type name, cause and filename; with the flag cleared a present
value raises an unexpected-data error naming the cell and filename, and an
empty cell is absent. -/
theorem c5_scalar_leaves :
    ∀ (mkNode : String → Cell → HeadT) (conv : CellVal → Except String PyVal)
      (target : String),
      (mkNode, conv, target) ∈
        ([(HeadT.hint, fun cv => (intConv cv).map PyVal.pint, "int"),
          (HeadT.hfloat, fun cv => (floatConv cv).map PyVal.pfloat, "float"),
          (HeadT.hstring, fun cv => .ok (.pstr (strConv cv)), "string")] :
          List ((String → Cell → HeadT) × (CellVal → Except String PyVal) × String)) →
      ∀ nm c row fn dc, pyIndex row ((c.col : Int) - 2) = some dc →
        ((dc.value = none → ∀ enable h,
            parseData (mkNode nm c) row enable fn h = .ok (.pnone, h)) ∧
         (∀ cv v, dc.value = some cv → conv cv = .ok v →
            ∀ h, parseData (mkNode nm c) row true fn h = .ok (v, h)) ∧
         (∀ cv e, dc.value = some cv → conv cv = .error e →
            ∀ h, parseData (mkNode nm c) row true fn h =
              .error (.typeConversion dc cv target e fn)) ∧
         (∀ cv, dc.value = some cv →
            ∀ h, parseData (mkNode nm c) row false fn h =
              .error (.unexpectedData dc fn))) := by
  intro mkNode conv target hmem nm c row fn dc hdc
  simp only [List.mem_cons, List.not_mem_nil, or_false, Prod.mk.injEq] at hmem
  rcases hmem with ⟨rfl, rfl, rfl⟩ | ⟨rfl, rfl, rfl⟩ | ⟨rfl, rfl, rfl⟩
  · refine ⟨?_, ?_, ?_, ?_⟩
    · intro hdv enable h
      cases enable <;>
        simp [parseData, bind, Except.bind, hdc, validateAndConvert, hdv]
    · intro cv v hdv hconv h
      rcases hic : intConv cv with e | nv <;> simp [hic, Except.map] at hconv
      subst hconv
      simp [parseData, bind, Except.bind, hdc, validateAndConvert, hdv, hic]
    · intro cv e hdv hconv h
      rcases hic : intConv cv with e0 | nv <;> simp [hic, Except.map] at hconv
      subst hconv
      simp [parseData, bind, Except.bind, hdc, validateAndConvert, hdv, hic]
    · intro cv hdv h
      simp [parseData, bind, Except.bind, hdc, validateAndConvert, hdv]
  · refine ⟨?_, ?_, ?_, ?_⟩
    · intro hdv enable h
      cases enable <;>
        simp [parseData, bind, Except.bind, hdc, validateAndConvert, hdv]
    · intro cv v hdv hconv h
      rcases hic : floatConv cv with e | nv <;> simp [hic, Except.map] at hconv
      subst hconv
      simp [parseData, bind, Except.bind, hdc, validateAndConvert, hdv, hic]
    · intro cv e hdv hconv h
      rcases hic : floatConv cv with e0 | nv <;> simp [hic, Except.map] at hconv
      subst hconv
      simp [parseData, bind, Except.bind, hdc, validateAndConvert, hdv, hic]
    · intro cv hdv h
      simp [parseData, bind, Except.bind, hdc, validateAndConvert, hdv]
  · refine ⟨?_, ?_, ?_, ?_⟩
    · intro hdv enable h
      cases enable <;>
        simp [parseData, bind, Except.bind, hdc, validateAndConvert, hdv]
    · intro cv v hdv hconv h
      simp only [Except.ok.injEq] at hconv
      subst hconv
      simp [parseData, bind, Except.bind, hdc, validateAndConvert, hdv]
    · intro cv e hdv hconv h
      exact absurd hconv (by simp)
    · intro cv hdv h
      simp [parseData, bind, Except.bind, hdc, validateAndConvert, hdv]

/-- C8 counterexample: a freshly built list node (accumulator identity 0)
whose very first `parse_data` call has `active = false` on a row whose key
column holds 0 fails with a Python `AttributeError` — `self.data` was never
assigned in `__init__` — which is outside the closed error taxonomy. -/
theorem c8_counterexample :
    heapGet ([] : Heap) 0 = none ∧
    parseData listLV (rowKV 0 "a") false none [] = .error .attributeError := by
  refine ⟨rfl, ?_⟩
  rw [← parseDataX_eq]
  rfl

/-- C8 amended: a container's accumulator is created by the first
`parse_data` call with the flag set, not at construction.  A list node whose
`self.data` is still unassigned after the key probe fails with
`AttributeError` when the key is present (a dict node likewise, after its
value child has run); after any successful call with the flag set the
accumulator attribute exists. -/
theorem c8_amended :
    (∀ nm c id K V row fn h kv h2,
      parseData K row true fn h = .ok (kv, h2) → kv ≠ .pnone →
      heapGet h2 id = none →
      parseData (.hlist nm c id (some K) (some V)) row false fn h =
        .error .attributeError) ∧
    (∀ nm c id K V row fn h kv h2 vv h3,
      parseData K row true fn h = .ok (kv, h2) → kv ≠ .pnone →
      parseData V row true fn h2 = .ok (vv, h3) →
      heapGet h3 id = none →
      parseData (.hdict nm c id (some K) (some V)) row false fn h =
        .error .attributeError) ∧
    (∀ nm c id key value row fn h v h2,
      parseData (.hlist nm c id key value) row true fn h = .ok (v, h2) →
      ∃ a, heapGet h2 id = some a) ∧
    (∀ nm c id key value row fn h v h2,
      parseData (.hdict nm c id key value) row true fn h = .ok (v, h2) →
      ∃ a, heapGet h2 id = some a) := by
  refine ⟨?_, ?_, ?_, ?_⟩
  · intro nm c id K V row fn h kv h2 hK hkv hga
    cases kv with
    | pnone => exact absurd rfl hkv
    | pint n => simp [parseData, bind, Except.bind, hK, hga]
    | pfloat n => simp [parseData, bind, Except.bind, hK, hga]
    | pstr s => simp [parseData, bind, Except.bind, hK, hga]
    | pref r => simp [parseData, bind, Except.bind, hK, hga]
    | pdict es => simp [parseData, bind, Except.bind, hK, hga]
  · intro nm c id K V row fn h kv h2 vv h3 hK hkv hV hga
    cases kv with
    | pnone => exact absurd rfl hkv
    | pint n => simp [parseData, bind, Except.bind, hK, hV, hga]
    | pfloat n => simp [parseData, bind, Except.bind, hK, hV, hga]
    | pstr s => simp [parseData, bind, Except.bind, hK, hV, hga]
    | pref r => simp [parseData, bind, Except.bind, hK, hV, hga]
    | pdict es => simp [parseData, bind, Except.bind, hK, hV, hga]
  · intro nm c id key value row fn h v h2 hp
    cases key with
    | none => simp [parseData] at hp
    | some k =>
      simp only [parseData, bind, Except.bind, reduceIte] at hp
      rcases hk : parseData k row true fn (heapSet h id (Accum.alist [])) with
          e | ⟨kv, h2k⟩ <;> rw [hk] at hp
      · exact absurd hp (by simp)
      · obtain ⟨b1, hb1⟩ := parseData_domMono k row true fn _ kv h2k hk id _
          (heapGet_heapSet_self h id (Accum.alist []))
        cases kv
        case pnone =>
          cases value with
          | none => simp at hp
          | some vt =>
            rcases hv : parseData vt row false fn h2k with e | ⟨x, h3⟩ <;>
              simp [hv] at hp
            obtain ⟨-, hh⟩ := hp
            subst hh
            exact parseData_domMono vt row false fn h2k x _ hv id b1 hb1
        all_goals
          simp only [] at hp
          rw [hb1] at hp
          cases b1 with
          | adict es2 => simp at hp
          | alist acc =>
            simp only [] at hp
            split at hp
            · cases value with
              | none => simp at hp
              | some vt =>
                simp only [] at hp
                rcases hv : parseData vt row true fn h2k with e | ⟨vv, h3⟩ <;>
                  rw [hv] at hp
                · simp at hp
                · simp only [] at hp
                  rcases hga3 : heapGet h3 id with _ | a3 <;> rw [hga3] at hp
                  · simp at hp
                  · cases a3 with
                    | adict es2 => simp at hp
                    | alist acc3 =>
                      simp at hp
                      obtain ⟨-, hh⟩ := hp
                      subst hh
                      exact ⟨_, heapGet_heapSet_self h3 id _⟩
            · split at hp <;> simp at hp
  · intro nm c id key value row fn h v h2 hp
    cases key with
    | none => simp [parseData] at hp
    | some k =>
      simp only [parseData, bind, Except.bind, reduceIte] at hp
      rcases hk : parseData k row true fn (heapSet h id (Accum.adict [])) with
          e | ⟨kv, h2k⟩ <;> rw [hk] at hp
      · exact absurd hp (by simp)
      · obtain ⟨b1, hb1⟩ := parseData_domMono k row true fn _ kv h2k hk id _
          (heapGet_heapSet_self h id (Accum.adict []))
        cases kv
        case pnone =>
          cases value with
          | none => simp at hp
          | some vt =>
            rcases hv : parseData vt row false fn h2k with e | ⟨x, h3⟩ <;>
              simp [hv] at hp
            obtain ⟨-, hh⟩ := hp
            subst hh
            exact parseData_domMono vt row false fn h2k x _ hv id b1 hb1
        all_goals
          simp only [] at hp
          cases value with
          | none => simp at hp
          | some vt =>
            simp only [] at hp
            rcases hv : parseData vt row true fn h2k with e | ⟨vv, h3⟩ <;>
              rw [hv] at hp
            · simp at hp
            · simp only [] at hp
              rcases hga3 : heapGet h3 id with _ | a3 <;> rw [hga3] at hp
              · simp at hp
              · cases a3 with
                | alist xs => simp at hp
                | adict acc =>
                  simp at hp
                  obtain ⟨-, hh⟩ := hp
                  subst hh
                  exact ⟨_, heapGet_heapSet_self h3 id _⟩

/-- Witness for the amended C8: the concrete list node with a present key 0
and unassigned accumulator. -/
theorem c8_amended_witness :
    parseData (.hint "i" (mkCell 3 2 (some (.vstr "i:int")))) (rowKV 0 "a")
      true none [] = .ok (.pint 0, []) ∧
    parseData
      (.hlist "l" (mkCell 2 2 (some (.vstr "l:list"))) 0
        (some (.hint "i" (mkCell 3 2 (some (.vstr "i:int")))))
        (some (.hstring "v" (mkCell 3 3 (some (.vstr "v:string"))))))
      (rowKV 0 "a") false none [] = .error .attributeError :=
  ⟨by rw [← parseDataX_eq]; rfl,
   c8_amended.1 "l" (mkCell 2 2 (some (.vstr "l:list"))) 0 _ _ (rowKV 0 "a")
     none [] (.pint 0) [] (by rw [← parseDataX_eq]; rfl) (by simp) rfl⟩

/-- Witness for C4 at the concrete header cell `x:list`. -/
theorem c4_head_creator_witness :
    splitAtColon (headCellText (mkCell 1 2 (some (.vstr "x:list")))).toList =
      some (['x'], ['l', 'i', 's', 't']) ∧
    headCreator (mkCell 1 2 (some (.vstr "x:list"))) none 7 =
      .ok (.hlist "x" (mkCell 1 2 (some (.vstr "x:list"))) 7 none none) :=
  ⟨rfl, ((c4_head_creator (mkCell 1 2 (some (.vstr "x:list"))) none 7).2.1
      ['x'] ['l', 'i', 's', 't'] rfl).2.2.2.2.1 rfl⟩

/-- Witness for C5: the Int leaf over data column 0 on a row carrying 5. -/
theorem c5_scalar_leaves_witness :
    pyIndex [mkCell 5 2 (some (.vint 5))] (((mkCell 3 2 none).col : Int) - 2) =
      some (mkCell 5 2 (some (.vint 5))) ∧
    parseData (.hint "i" (mkCell 3 2 none)) [mkCell 5 2 (some (.vint 5))]
      true none [] = .ok (.pint 5, []) :=
  ⟨rfl,
    ((c5_scalar_leaves HeadT.hint _ "int" (List.mem_cons_self _ _) "i"
        (mkCell 3 2 none) [mkCell 5 2 (some (.vint 5))] none
        (mkCell 5 2 (some (.vint 5))) rfl).2.1 (.vint 5) (.pint 5) rfl rfl [])⟩

/-- `ret[name] = v` appends when the name is new. -/
theorem updStr_new (xs : List (String × PyVal)) (k : String) (v : PyVal)
    (hk : k ∉ xs.map Prod.fst) : updStr xs k v = xs ++ [(k, v)] := by
  induction xs with
  | nil => rfl
  | cons p rest ih =>
    rcases p with ⟨k0, v0⟩
    rw [List.map_cons, List.mem_cons] at hk
    push_neg at hk
    have h0 : ¬ k0 = k := fun h => hk.1 h.symm
    simp [updStr, h0, ih hk.2]

/-- The `ret` mapping built by a class's active pass lists one key per child
name when the pending names are distinct. -/
theorem parseClassT_names :
    ∀ (children : List HeadT) (row : List Cell) (fn : Option String)
      (acc : List (String × PyVal)) (h : Heap) (m : List (String × PyVal))
      (h2 : Heap),
      parseClassT children row fn acc h = .ok (m, h2) →
      (acc.map Prod.fst ++ children.map HeadT.nameOf).Nodup →
      m.map Prod.fst = acc.map Prod.fst ++ children.map HeadT.nameOf := by
  intro children
  induction children with
  | nil =>
    intro row fn acc h m h2 hp hnd
    simp [parseClassT] at hp
    obtain ⟨hm, -⟩ := hp
    subst hm
    simp
  | cons child rest ih =>
    intro row fn acc h m h2 hp hnd
    simp only [parseClassT, bind, Except.bind] at hp
    rcases hc : parseData child row true fn h with e | ⟨v1, hh1⟩ <;> rw [hc] at hp
    · exact absurd hp (by simp)
    · simp only [] at hp
      have hnotin : child.nameOf ∉ acc.map Prod.fst := by
        intro hmem
        rcases List.nodup_append.mp hnd with ⟨-, -, hdisj⟩
        exact hdisj hmem (by simp)
      rw [updStr_new acc child.nameOf v1 hnotin] at hp
      have hnd2 : ((acc ++ [(child.nameOf, v1)]).map Prod.fst ++
          rest.map HeadT.nameOf).Nodup := by
        simpa using hnd
      have := ih row fn (acc ++ [(child.nameOf, v1)]) hh1 m h2 hp hnd2
      simpa using this
  
/-- A class's inactive pass reaches every child with the flag cleared. -/
theorem parseClassF_each :
    ∀ (children : List HeadT) (row : List Cell) (fn : Option String)
      (h h2 : Heap),
      parseClassF children row fn h = .ok h2 →
      ∀ child ∈ children, ∃ h1 x h3, parseData child row false fn h1 = .ok (x, h3) := by
  intro children
  induction children with
  | nil =>
    intro row fn h h2 hp child hc
    cases hc
  | cons c0 rest ih =>
    intro row fn h h2 hp child hc
    simp only [parseClassF, bind, Except.bind] at hp
    rcases hc0 : parseData c0 row false fn h with e | ⟨x, hh1⟩ <;> rw [hc0] at hp
    · exact absurd hp (by simp)
    · rcases List.mem_cons.mp hc with hc | hc
      · subst hc
        exact ⟨h, x, hh1, hc0⟩
      · exact ih row fn hh1 h2 (by simpa using hp) child hc

/-- C7 counterexample: a record whose two children share the name `a`
produces a single-entry mapping, not one entry per declared child. -/
theorem c7_counterexample :
    parseData classDup rowDup true none [] = .ok (.pdict [("a", .pstr "x")], []) ∧
    ([("a", PyVal.pstr "x")] : List (String × PyVal)).length ≠ dupChildren.length := by
  refine ⟨?_, by decide⟩
  rw [← parseDataX_eq]
  rfl

/-- C7 amended: when the declared children bear distinct names, the active
pass returns a mapping with exactly one entry per child, keyed by child name
in declared order (a duplicated name collapses onto the first occurrence,
keeping the last value); the inactive pass returns absent after invoking
every child with the flag cleared. -/
theorem c7_amended :
    (∀ nm c children row fn h v h2,
      parseData (.hclass nm c children) row true fn h = .ok (v, h2) →
      (children.map HeadT.nameOf).Nodup →
      ∃ m, v = .pdict m ∧ m.map Prod.fst = children.map HeadT.nameOf) ∧
    (∀ nm c children row fn h v h2,
      parseData (.hclass nm c children) row false fn h = .ok (v, h2) →
      v = .pnone ∧
      ∀ child ∈ children, ∃ h1 x h3,
        parseData child row false fn h1 = .ok (x, h3)) := by
  constructor
  · intro nm c children row fn h v h2 hp hnd
    simp only [parseData, bind, Except.bind, reduceIte] at hp
    rcases hct : parseClassT children row fn [] h with e | ⟨m, h3⟩ <;>
      rw [hct] at hp
    · exact absurd hp (by simp)
    · simp at hp
      have hnames := parseClassT_names children row fn [] h m h3 hct
        (by simpa using hnd)
      exact ⟨m, hp.1.symm, by simpa using hnames⟩
  · intro nm c children row fn h v h2 hp
    simp only [parseData, bind, Except.bind, reduceIte] at hp
    rcases hcf : parseClassF children row fn h with e | h3 <;> rw [hcf] at hp
    · exact absurd hp (by simp)
    · simp at hp
      exact ⟨hp.1.symm, fun child hc =>
        parseClassF_each children row fn h h3 hcf child hc⟩

/-- Witness for the amended C7 on a two-child record with distinct names. -/
theorem c7_amended_witness :
    parseData
      (.hclass "t" (mkCell 1 2 (some (.vstr "t:class")))
        [.hint "a" (mkCell 2 2 (some (.vstr "a:int"))),
         .hstring "b" (mkCell 2 3 (some (.vstr "b:string")))])
      rowDup true none [] = .ok (.pdict [("a", .pint 1), ("b", .pstr "x")], []) ∧
    ∃ m, (PyVal.pdict [("a", .pint 1), ("b", .pstr "x")]) = .pdict m ∧
      m.map Prod.fst =
        ([.hint "a" (mkCell 2 2 (some (.vstr "a:int"))),
          .hstring "b" (mkCell 2 3 (some (.vstr "b:string")))] :
          List HeadT).map HeadT.nameOf :=
  ⟨by rw [← parseDataX_eq]; rfl,
   c7_amended.1 "t" (mkCell 1 2 (some (.vstr "t:class"))) _ rowDup none [] _ []
     (by rw [← parseDataX_eq]; rfl) (by simp [HeadT.nameOf])⟩

/-- C2: a list node probes its key child with the flag set regardless of the
flag it was itself passed — a key-cell failure surfaces identically under
either flag, and an in-order key on a flag-cleared row appends the value
child's result to the shared accumulator — and the merged-header scenario
(`tags:list` over `i:int`, `v:string`; rows `#data|0|a`, `|1|b`, `|2|c`)
yields the session output `{"tags": ["a", "b", "c"]}`. -/
theorem c2_list_spans_rows :
    (∀ nm c id K V row fn h enable e,
      parseData K row true fn
        (if enable then heapSet h id (.alist []) else h) = .error e →
      parseData (.hlist nm c id (some K) (some V)) row enable fn h = .error e) ∧
    (∀ nm c id K V row fn h acc vv h2 h3,
      parseData K row true fn h = .ok (.pint (acc.length : Int), h2) →
      heapGet h2 id = some (.alist acc) →
      parseData V row true fn h2 = .ok (vv, h3) →
      heapGet h3 id = some (.alist acc) →
      parseData (.hlist nm c id (some K) (some V)) row false fn h =
        .ok (.pnone, heapSet h3 id (.alist (acc ++ [vv])))) ∧
    (getData sheetTags rangesTags none =
      .ok (.pdict [("tags", .pref 1)],
        [(1, .alist [.pstr "a", .pstr "b", .pstr "c"])]) ∧
     resolve [(1, .alist [.pstr "a", .pstr "b", .pstr "c"])] 5
        (.pdict [("tags", .pref 1)]) =
      some (.jobj [("tags", .jarr [.jstr "a", .jstr "b", .jstr "c"])])) := by
  refine ⟨?_, ?_, ?_, rfl⟩
  · intro nm c id K V row fn h enable e hK
    simp only [parseData, bind, Except.bind]
    rw [hK]
  · intro nm c id K V row fn h acc vv h2 h3 hK hg2 hV hg3
    simp only [parseData, bind, Except.bind, Bool.false_eq_true, if_false]
    rw [hK]
    simp only [] 
    rw [hg2]
    simp only [keyEqLen, beq_self_eq_true, if_pos]
    rw [hV]
    simp only []
    rw [hg3]
  · rw [← getDataX_eq]
    rfl

/-- Witness for C2's general conjuncts at the concrete list node, key 0 and
value `a`, with the accumulator freshly reset. -/
theorem c2_list_spans_rows_witness :
    parseData (.hint "i" (mkCell 3 2 (some (.vstr "i:int")))) (rowKV 0 "a")
      true none [(0, .alist [])] = .ok (.pint 0, [(0, .alist [])]) ∧
    parseData
      (.hlist "l" (mkCell 2 2 (some (.vstr "l:list"))) 0
        (some (.hint "i" (mkCell 3 2 (some (.vstr "i:int")))))
        (some (.hstring "v" (mkCell 3 3 (some (.vstr "v:string"))))))
      (rowKV 0 "a") false none [(0, .alist [])] =
      .ok (.pnone, heapSet [(0, Accum.alist [])] 0 (.alist [.pstr "a"])) :=
  ⟨by rw [← parseDataX_eq]; rfl,
   c2_list_spans_rows.2.1 "l" (mkCell 2 2 (some (.vstr "l:list"))) 0 _ _
     (rowKV 0 "a") none [(0, .alist [])] [] (.pstr "a") [(0, .alist [])]
     [(0, .alist [])] (by rw [← parseDataX_eq]; rfl) rfl
     (by rw [← parseDataX_eq]; rfl) rfl⟩

/-- The Int key probe is heap-free: a `HeadInt` parse with the flag set is
`intProbe` with the heap passed through. -/
theorem hint_parse_probe (nm : String) (c : Cell) (row : List Cell)
    (fn : Option String) (h : Heap) :
    parseData (.hint nm c) row true fn h =
      match intProbe c row fn with
      | .ok v => .ok (v, h)
      | .error e => .error e := by
  simp only [parseData, bind, Except.bind, intProbe]
  rcases hpi : pyIndex row ((c.col : Int) - 2) with _ | dc
  · rfl
  · simp only [validateAndConvert, reduceIte]
    rcases hdv : dc.value with _ | cv <;> simp only [hdv]
    rcases hic : intConv cv with e | n <;> simp [hic]

/-- The Int key probe produces an error, an absent key, or an integer key. -/
theorem intProbe_cases (c : Cell) (row : List Cell) (fn : Option String) :
    (∃ e, intProbe c row fn = .error e) ∨ intProbe c row fn = .ok .pnone ∨
    ∃ k, intProbe c row fn = .ok (.pint k) := by
  unfold intProbe
  rcases hpi : pyIndex row ((c.col : Int) - 2) with _ | dc <;> simp only [hpi]
  · simp
  · rcases hdv : dc.value with _ | cv <;> simp only [hdv]
    · simp
    · rcases hic : intConv cv with e | n <;> simp only [hic] <;> simp

/-- One flag-cleared row through a well-formed list node: an absent key
leaves the accumulator unchanged, a present key equals the current length
and appends one element. -/
theorem list_false_step (nm : String) (kn : String) (c kc : Cell) (id : Nat)
    (V : HeadT) (hidV : id ∉ idsOf V) (row : List Cell) (fn : Option String)
    (h : Heap) (acc : List PyVal) (res : PyVal) (h2 : Heap)
    (hacc : heapGet h id = some (.alist acc))
    (hp : parseData (.hlist nm c id (some (.hint kn kc)) (some V)) row false
      fn h = .ok (res, h2)) :
    res = .pnone ∧
    ((intProbe kc row fn = .ok .pnone ∧ heapGet h2 id = some (.alist acc)) ∨
     (intProbe kc row fn = .ok (.pint (acc.length : Int)) ∧
      ∃ vv, heapGet h2 id = some (.alist (acc ++ [vv])))) := by
  generalize hKdef : HeadT.hint kn kc = K at hp
  simp only [parseData, bind, Except.bind, Bool.false_eq_true, if_false] at hp
  rw [← hKdef] at hp
  rw [hint_parse_probe] at hp
  rcases intProbe_cases kc row fn with ⟨e, hpr⟩ | hpr | ⟨k, hpr⟩ <;>
    rw [hpr] at hp
  · simp at hp
  · simp only [] at hp
    rcases hv : parseData V row false fn h with e | ⟨x, h3⟩ <;> rw [hv] at hp
    · simp at hp
    · simp at hp
      obtain ⟨hres, hh⟩ := hp
      refine ⟨hres.symm, Or.inl ⟨hpr, ?_⟩⟩
      rw [← hh, parseData_frame V row false fn h x h3 hv id hidV]
      exact hacc
  · simp only [] at hp
    rw [hacc] at hp
    simp only [] at hp
    by_cases hkey : keyEqLen (.pint k) acc.length = true
    · rw [if_pos hkey] at hp
      rcases hv : parseData V row true fn h with e | ⟨vv, h3⟩ <;> rw [hv] at hp
      · simp at hp
      · simp only [] at hp
        have hfr : heapGet h3 id = some (.alist acc) := by
          rw [parseData_frame V row true fn h vv h3 hv id hidV]
          exact hacc
        rw [hfr] at hp
        simp at hp
        obtain ⟨hres, hh⟩ := hp
        have hkeq : k = (acc.length : Int) := by
          simpa [keyEqLen] using hkey
        refine ⟨hres.symm, Or.inr ⟨by rw [hpr, hkeq], ⟨vv, ?_⟩⟩⟩
        rw [← hh]
        exact heapGet_heapSet_self h3 id _
    · rw [if_neg hkey] at hp
      rcases hpi : pyIndex row ((c.col : Int) - 2) with _ | dc <;>
        rw [hpi] at hp <;> simp at hp

/-- The flag-set call that opens a list instance: the accumulator is reset
and the first row's key, when present, is 0. -/
theorem list_true_step (nm : String) (kn : String) (c kc : Cell) (id : Nat)
    (V : HeadT) (hidV : id ∉ idsOf V) (row : List Cell) (fn : Option String)
    (h : Heap) (v : PyVal) (h2 : Heap)
    (hp : parseData (.hlist nm c id (some (.hint kn kc)) (some V)) row true
      fn h = .ok (v, h2)) :
    v = .pref id ∧
    ((intProbe kc row fn = .ok .pnone ∧ heapGet h2 id = some (.alist [])) ∨
     (intProbe kc row fn = .ok (.pint 0) ∧
      ∃ vv, heapGet h2 id = some (.alist [vv]))) := by
  generalize hKdef : HeadT.hint kn kc = K at hp
  simp only [parseData, bind, Except.bind, reduceIte] at hp
  rw [← hKdef] at hp
  rw [hint_parse_probe] at hp
  have hacc : heapGet (heapSet h id (Accum.alist [])) id = some (.alist []) :=
    heapGet_heapSet_self h id _
  rcases intProbe_cases kc row fn with ⟨e, hpr⟩ | hpr | ⟨k, hpr⟩ <;>
    rw [hpr] at hp
  · simp at hp
  · simp only [] at hp
    rcases hv : parseData V row false fn (heapSet h id (Accum.alist [])) with
        e | ⟨x, h3⟩ <;> rw [hv] at hp
    · simp at hp
    · simp at hp
      obtain ⟨hres, hh⟩ := hp
      refine ⟨hres.symm, Or.inl ⟨hpr, ?_⟩⟩
      rw [← hh, parseData_frame V row false fn _ x h3 hv id hidV]
      exact hacc
  · simp only [] at hp
    rw [hacc] at hp
    simp only [] at hp
    by_cases hkey : keyEqLen (.pint k) ([] : List PyVal).length = true
    · rw [if_pos hkey] at hp
      rcases hv : parseData V row true fn (heapSet h id (Accum.alist [])) with
          e | ⟨vv, h3⟩ <;> rw [hv] at hp
      · simp at hp
      · simp only [] at hp
        have hfr : heapGet h3 id = some (.alist []) := by
          rw [parseData_frame V row true fn _ vv h3 hv id hidV]
          exact hacc
        rw [hfr] at hp
        simp at hp
        obtain ⟨hres, hh⟩ := hp
        have hkeq : k = 0 := by simpa [keyEqLen] using hkey
        refine ⟨hres.symm, Or.inr ⟨by rw [hpr, hkeq], ⟨vv, ?_⟩⟩⟩
        rw [← hh]
        simpa using heapGet_heapSet_self h3 id (Accum.alist [vv])
    · rw [if_neg hkey] at hp
      rcases hpi : pyIndex row ((c.col : Int) - 2) with _ | dc <;>
        rw [hpi] at hp <;> simp at hp

/-- Replaying rows through one list instance: the keys present in the rows
are exactly the consecutive indices starting at the current accumulator
length. -/
theorem feedRows_keys (nm : String) (kn : String) (c kc : Cell) (id : Nat)
    (V : HeadT) (hidV : id ∉ idsOf V) (fn : Option String) :
    ∀ (rows : List (List Cell)) (h : Heap) (acc : List PyVal) (h2 : Heap),
      heapGet h id = some (.alist acc) →
      feedRows (.hlist nm c id (some (.hint kn kc)) (some V)) fn rows h =
        .ok h2 →
      ∃ acc2 : List PyVal, heapGet h2 id = some (.alist acc2) ∧
        acc.length ≤ acc2.length ∧
        presentKeys kc fn rows =
          (List.range' acc.length (acc2.length - acc.length)).map Int.ofNat := by
  intro rows
  induction rows with
  | nil =>
    intro h acc h2 hacc hp
    simp [feedRows] at hp
    subst hp
    exact ⟨acc, hacc, le_refl _, by simp [presentKeys]⟩
  | cons r rest ih =>
    intro h acc h2 hacc hp
    simp only [feedRows] at hp
    rcases hr : parseData (.hlist nm c id (some (.hint kn kc)) (some V)) r
        false fn h with e | ⟨x, hmid⟩ <;> rw [hr] at hp
    · exact absurd hp (by simp)
    · obtain ⟨-, step⟩ := list_false_step nm kn c kc id V hidV r fn h acc x
        hmid hacc hr
      rcases step with ⟨hk, hsame⟩ | ⟨hk, vv, happ⟩
      · obtain ⟨acc2, hg, hle, hkeys⟩ := ih hmid acc h2 hsame hp
        refine ⟨acc2, hg, hle, ?_⟩
        simp only [presentKeys, List.filterMap_cons, hk]
        exact hkeys
      · obtain ⟨acc2, hg, hle, hkeys⟩ := ih hmid (acc ++ [vv]) h2 happ hp
        simp only [List.length_append, List.length_singleton] at hle
        refine ⟨acc2, hg, by omega, ?_⟩
        simp only [presentKeys, List.filterMap_cons, hk]
        simp only [presentKeys] at hkeys
        rw [hkeys]
        have hsplit : acc2.length - acc.length =
            (acc2.length - (acc.length + 1)) + 1 := by omega
        rw [hsplit, List.range'_succ]
        simp

/-- C3: over one list instance — the flag-set call on the first row then
flag-cleared calls on the rest — the keys accepted without error are exactly
the contiguous sequence 0, 1, …, n−1 where n is the final accumulator
length; and a present key different from the current accumulator length
fails with an invalid-index error carrying the expected and observed
index. -/
theorem c3_list_keys_contiguous :
    (∀ nm kn c kc id V fn first rest v h2,
      id ∉ idsOf V →
      feedList (.hlist nm c id (some (.hint kn kc)) (some V)) fn first rest =
        .ok (v, h2) →
      ∃ acc : List PyVal, heapGet h2 id = some (.alist acc) ∧
        presentKeys kc fn (first :: rest) =
          (List.range acc.length).map Int.ofNat) ∧
    (∀ nm kn c kc id V fn row h acc k dc,
      heapGet h id = some (.alist acc) →
      intProbe kc row fn = .ok (.pint k) → k ≠ (acc.length : Int) →
      pyIndex row ((c.col : Int) - 2) = some dc →
      parseData (.hlist nm c id (some (.hint kn kc)) (some V)) row false fn h =
        .error (.invalidIndex dc acc.length (.pint k) fn)) := by
  constructor
  · intro nm kn c kc id V fn first rest v h2 hidV hp
    simp only [feedList] at hp
    rcases h1p : parseData (.hlist nm c id (some (.hint kn kc)) (some V))
        first true fn [] with e | ⟨v1, hmid⟩ <;> rw [h1p] at hp
    · exact absurd hp (by simp)
    · simp only [] at hp
      rcases hfr : feedRows (.hlist nm c id (some (.hint kn kc)) (some V)) fn
          rest hmid with e | h2x <;> rw [hfr] at hp
      · exact absurd hp (by simp)
      · simp at hp
        obtain ⟨-, hh⟩ := hp
        subst hh
        obtain ⟨-, step⟩ := list_true_step nm kn c kc id V hidV first fn [] v1
          hmid h1p
        rcases step with ⟨hk, hinit⟩ | ⟨hk, vv, hinit⟩
        · obtain ⟨acc2, hg, hle, hkeys⟩ := feedRows_keys nm kn c kc id V hidV
            fn rest hmid [] h2x hinit hfr
          refine ⟨acc2, hg, ?_⟩
          simp only [presentKeys, List.filterMap_cons, hk]
          simp only [presentKeys] at hkeys
          rw [hkeys]
          simp [List.range_eq_range']
        · obtain ⟨acc2, hg, hle, hkeys⟩ := feedRows_keys nm kn c kc id V hidV
            fn rest hmid [vv] h2x hinit hfr
          refine ⟨acc2, hg, ?_⟩
          simp only [presentKeys, List.filterMap_cons, hk]
          simp only [presentKeys] at hkeys
          rw [hkeys]
          simp only [List.length_singleton]
          rw [List.range_eq_range']
          have hsplit : acc2.length = (acc2.length - 1) + 1 := by
            simp at hle; omega
          rw [hsplit, List.range'_succ]
          simp
  · intro nm kn c kc id V fn row h acc k dc hacc hpr hne hpi
    generalize hKdef : HeadT.hint kn kc = K
    simp only [parseData, bind, Except.bind, Bool.false_eq_true, if_false]
    rw [← hKdef]
    rw [hint_parse_probe, hpr]
    simp only []
    rw [hacc]
    simp only []
    have hkey : keyEqLen (.pint k) acc.length = false := by
      simp [keyEqLen]
      intro he
      exact absurd he hne
    rw [if_neg (by rw [hkey]; exact Bool.false_ne_true)]
    rw [hpi]

/-- Witness for C3 on the concrete list node fed `(0, a)` then `(1, b)`. -/
theorem c3_list_keys_contiguous_witness :
    (0 : Nat) ∉ idsOf (.hstring "v" (mkCell 3 3 (some (.vstr "v:string")))) ∧
    feedList
      (.hlist "l" (mkCell 2 2 (some (.vstr "l:list"))) 0
        (some (.hint "i" (mkCell 3 2 (some (.vstr "i:int")))))
        (some (.hstring "v" (mkCell 3 3 (some (.vstr "v:string"))))))
      none (rowKV 0 "a") [rowKV 1 "b"] =
      .ok (.pref 0, [(0, .alist [.pstr "a", .pstr "b"])]) ∧
    ∃ acc : List PyVal,
      heapGet [(0, Accum.alist [.pstr "a", .pstr "b"])] 0 = some (.alist acc) ∧
      presentKeys (mkCell 3 2 (some (.vstr "i:int"))) none
        (rowKV 0 "a" :: [rowKV 1 "b"]) = (List.range acc.length).map Int.ofNat :=
  ⟨by simp [idsOf], by rw [← feedListX_eq]; rfl,
   c3_list_keys_contiguous.1 "l" "i" (mkCell 2 2 (some (.vstr "l:list")))
     (mkCell 3 2 (some (.vstr "i:int"))) 0
     (.hstring "v" (mkCell 3 3 (some (.vstr "v:string"))))
     none (rowKV 0 "a") [rowKV 1 "b"]
     (.pref 0) [(0, .alist [.pstr "a", .pstr "b"])] (by simp [idsOf])
     (by rw [← feedListX_eq]; rfl)⟩

/-- The row loop of `get_data`: when it succeeds, either no `#data` row was
seen and `data_root` passed through (with the compiled tree untouched once
`is_data` held), or `data_root` is the value extracted, with the flag set,
from the LAST `#data` row, and every later non-comment row was replayed with
the flag cleared. -/
theorem getRows_last_data (ranges : List MergedRange) (fn : Option String) :
    ∀ (rows : List (List Cell)) (s s2 : DState),
      getRows ranges fn rows s = .ok s2 →
      ((∀ r ∈ rows, markerIs r "#data" = false) ∧ s2.root = s.root ∧
        (s.isData = true → s2.comp = s.comp ∧
          ∀ r ∈ rows, markerIs r "#" = true ∨
            ∃ x h1 h2p,
              parseData s.comp.tree (r.drop 1) false fn h1 = .ok (x, h2p))) ∨
      (∃ pre drow post, rows = pre ++ drow :: post ∧
        markerIs drow "#data" = true ∧
        (∀ r ∈ post, markerIs r "#data" = false) ∧
        (∃ hmid hmid2, parseData s2.comp.tree (drow.drop 1) true fn hmid =
          .ok (s2.root, hmid2)) ∧
        (∀ r ∈ post, markerIs r "#" = true ∨
          ∃ x h1 h2p,
            parseData s2.comp.tree (r.drop 1) false fn h1 = .ok (x, h2p))) := by
  intro rows
  induction rows with
  | nil =>
    intro s s2 hp
    simp [getRows] at hp
    subst hp
    exact Or.inl ⟨fun r hr => absurd hr (List.not_mem_nil r), rfl,
      fun _ => ⟨rfl, fun r hr => absurd hr (List.not_mem_nil r)⟩⟩
  | cons r rest ih =>
    intro s s2 hp
    simp only [getRows] at hp
    rcases hpi : pyIndex r 0 with _ | mc <;> rw [hpi] at hp
    · exact absurd hp (by simp)
    · simp only [] at hp
      by_cases hcm : mc.value = some (.vstr "#")
      · rw [if_pos hcm] at hp
        have hmk : markerIs r "#" = true := by simp [markerIs, hpi, hcm]
        have hmd : markerIs r "#data" = false := by simp [markerIs, hpi, hcm]
        rcases ih s s2 hp with ⟨hnd, hroot, hcl⟩ | ⟨pre, drow, post, hsplit, h1, h2, h3, h4⟩
        · refine Or.inl ⟨?_, hroot, ?_⟩
          · intro r0 hr0
            rcases List.mem_cons.mp hr0 with h | h
            · subst h; exact hmd
            · exact hnd r0 h
          · intro hisd
            obtain ⟨hcomp, hrep⟩ := hcl hisd
            refine ⟨hcomp, ?_⟩
            intro r0 hr0
            rcases List.mem_cons.mp hr0 with h | h
            · subst h; exact Or.inl hmk
            · exact hrep r0 h
        · exact Or.inr ⟨r :: pre, drow, post, by rw [hsplit, List.cons_append],
            h1, h2, h3, h4⟩
      · rw [if_neg hcm] at hp
        by_cases hdm : mc.value = some (.vstr "#data")
        · rw [if_pos hdm] at hp
          have hmd : markerIs r "#data" = true := by simp [markerIs, hpi, hdm]
          rcases hpd : parseData s.comp.tree (r.drop 1) true fn s.heap with
              e | ⟨v1, hh2⟩ <;> rw [hpd] at hp
          · exact absurd hp (by simp)
          · simp only [] at hp
            rcases ih _ s2 hp with ⟨hnd, hroot, hcl⟩ |
                ⟨pre, drow, post, hsplit, h1, h2, h3, h4⟩
            · obtain ⟨hcomp, hrep⟩ := hcl rfl
              refine Or.inr ⟨[], r, rest, by simp, hmd, hnd, ?_, ?_⟩
              · refine ⟨s.heap, hh2, ?_⟩
                simp only [hcomp]
                rw [hroot]
                exact hpd
              · intro r0 hr0
                rcases hrep r0 hr0 with h | ⟨x, h1x, h2x, hpx⟩
                · exact Or.inl h
                · exact Or.inr ⟨x, h1x, h2x, by rw [hcomp]; exact hpx⟩
            · exact Or.inr ⟨r :: pre, drow, post, by rw [hsplit, List.cons_append],
                h1, h2, h3, h4⟩
        · rw [if_neg hdm] at hp
          have hmd : markerIs r "#data" = false := by simp [markerIs, hpi, hdm]
          have hmk : markerIs r "#" = false := by simp [markerIs, hpi, hcm]
          by_cases hisd : s.isData = true
          · rw [if_pos hisd] at hp
            rcases hpd : parseData s.comp.tree (r.drop 1) false fn s.heap with
                e | ⟨x1, hh2⟩ <;> rw [hpd] at hp
            · exact absurd hp (by simp)
            · simp only [] at hp
              rcases ih _ s2 hp with ⟨hnd, hroot, hcl⟩ |
                  ⟨pre, drow, post, hsplit, h1, h2, h3, h4⟩
              · obtain ⟨hcomp, hrep⟩ := hcl hisd
                refine Or.inl ⟨?_, hroot, fun _ => ⟨hcomp, ?_⟩⟩
                · intro r0 hr0
                  rcases List.mem_cons.mp hr0 with h | h
                  · subst h; exact hmd
                  · exact hnd r0 h
                · intro r0 hr0
                  rcases List.mem_cons.mp hr0 with h | h
                  · subst h; exact Or.inr ⟨x1, s.heap, hh2, hpd⟩
                  · exact hrep r0 h
              · exact Or.inr ⟨r :: pre, drow, post,
                  by rw [hsplit, List.cons_append], h1, h2, h3, h4⟩
          · rw [if_neg hisd] at hp
            rcases hrp : rowParser ranges fn s.column (r.drop 1) s.comp with
                e | st2 <;> rw [hrp] at hp
            · exact absurd hp (by simp)
            · simp only [] at hp
              rcases ih _ s2 hp with ⟨hnd, hroot, hcl⟩ |
                  ⟨pre, drow, post, hsplit, h1, h2, h3, h4⟩
              · refine Or.inl ⟨?_, hroot, fun hh => absurd hh hisd⟩
                intro r0 hr0
                rcases List.mem_cons.mp hr0 with h | h
                · subst h; exact hmd
                · exact hnd r0 h
              · exact Or.inr ⟨r :: pre, drow, post,
                  by rw [hsplit, List.cons_append], h1, h2, h3, h4⟩

/-- C1: counterexample.  On a sheet with two `#data` rows, `get_data` returns
the value extracted from the LAST one (`2`), whereas extracting the FIRST
`#data` row with the flag set yields `1`: the first data row is not the
authoritative one. -/
theorem c1_counterexample :
    getData sheetTwoData [] none = .ok (.pint 2, []) ∧
    parseData (.hint "x" (mkCell 1 2 (some (.vstr "x:int"))))
      ([mkCell 2 1 (some (.vstr "#data")), mkCell 2 2 (some (.vint 1))].drop 1)
      true none [] = .ok (.pint 1, []) ∧
    PyVal.pint 2 ≠ PyVal.pint 1 :=
  ⟨by rw [← getDataX_eq]; rfl, by rw [← parseDataX_eq]; rfl, by simp⟩

/-- Reading off the final `data_root` match of `get_data`. -/
theorem rootMatch_ok (x : PyVal) (hh : Heap) (fn : Option String) (v : PyVal)
    (hfin : Heap)
    (hp : (match x with
      | .pnone => Except.error (Err.missingDataMarker fn)
      | w => Except.ok (w, hh)) = .ok (v, hfin)) :
    x = v ∧ hh = hfin ∧ x ≠ .pnone := by
  rcases x <;> simp only [] at hp
  case pnone => exact absurd hp (by simp)
  all_goals simp only [Except.ok.injEq, Prod.mk.injEq] at hp
  all_goals exact ⟨hp.1, hp.2, by simp⟩

/-- C1: amended.  When `get_data` succeeds, the sheet splits as a head row
followed by `pre ++ drow :: post` where `drow` is the LAST `#data` row: the
returned value is extracted from `drow` with the flag set, and every later
row is either a comment or was replayed with the flag cleared. -/
theorem c1_last_data_wins (sheet : List (List Cell)) (ranges : List MergedRange)
    (fn : Option String) (v : PyVal) (hfin : Heap)
    (hp : getData sheet ranges fn = .ok (v, hfin)) :
    ∃ firstRow rows pre drow post t,
      sheet = firstRow :: rows ∧
      rows = pre ++ drow :: post ∧
      markerIs drow "#data" = true ∧
      (∀ r ∈ post, markerIs r "#data" = false) ∧
      (∃ hmid hmid2, parseData t (drow.drop 1) true fn hmid = .ok (v, hmid2)) ∧
      (∀ r ∈ post, markerIs r "#" = true ∨
        ∃ x h1 h2p, parseData t (r.drop 1) false fn h1 = .ok (x, h2p)) := by
  rcases sheet with _ | ⟨firstRow, rest⟩
  · exact absurd hp (by simp [getData])
  · simp only [getData] at hp
    rcases hpi : pyIndex firstRow 0 with _ | fc <;> rw [hpi] at hp
    · exact absurd hp (by simp)
    · simp only [] at hp
      by_cases hfc : fc.value = some (.vstr "#head")
      · rw [if_pos hfc] at hp
        rcases hmk : mkHead (firstRow.drop 1) fn with e | ⟨column, st0⟩ <;>
          rw [hmk] at hp
        · exact absurd hp (by simp)
        · simp only [] at hp
          rcases hgr : getRows ranges fn rest ⟨st0, column, false, .pnone, []⟩
              with e | s <;> rw [hgr] at hp
          · exact absurd hp (by simp)
          · simp only [] at hp
            obtain ⟨hxv, hhh, hnp⟩ := rootMatch_ok s.root s.heap fn v hfin hp
            rcases getRows_last_data ranges fn rest _ s hgr with
                ⟨hnd, hroot2, hcl⟩ | ⟨pre, drow, post, hsplit, h1, h2, h3, h4⟩
            · exact absurd hroot2 hnp
            · refine ⟨firstRow, rest, pre, drow, post, s.comp.tree, rfl,
                hsplit, h1, h2, ?_, h4⟩
              obtain ⟨a, b, hpd⟩ := h3
              exact ⟨a, b, by rw [← hxv]; exact hpd⟩
      · rw [if_neg hfc] at hp
        exact absurd hp (by simp)

/-- Witness for C1 on the two-data-row sheet: the value `2` comes from the
last `#data` row. -/
theorem c1_last_data_wins_witness :
    getData sheetTwoData [] none = .ok (.pint 2, []) ∧
    (∃ firstRow rows pre drow post t,
      sheetTwoData = firstRow :: rows ∧
      rows = pre ++ drow :: post ∧
      markerIs drow "#data" = true ∧
      (∀ r ∈ post, markerIs r "#data" = false) ∧
      (∃ hmid hmid2,
        parseData t (drow.drop 1) true none hmid = .ok (.pint 2, hmid2)) ∧
      (∀ r ∈ post, markerIs r "#" = true ∨
        ∃ x h1 h2p, parseData t (r.drop 1) false none h1 = .ok (x, h2p))) :=
  ⟨by rw [← getDataX_eq]; rfl,
   c1_last_data_wins sheetTwoData [] none (.pint 2) []
     (by rw [← getDataX_eq]; rfl)⟩

/-- `_validate_and_convert` never raises the missing-data-marker error. -/
theorem validateAndConvert_no_mdm (dc : Cell) (enable : Bool)
    (fn : Option String) (e : Err)
    (hp : validateAndConvert dc enable fn = .error e) : e.isMDM = false := by
  simp only [validateAndConvert] at hp
  repeat' split at hp
  all_goals try simp at hp
  all_goals try subst hp
  all_goals rfl

/-- `head_creator` never raises the missing-data-marker error. -/
theorem headCreator_no_mdm (cell : Cell) (fn : Option String) (i : Nat)
    (e : Err) (hp : headCreator cell fn i = .error e) : e.isMDM = false := by
  simp only [headCreator] at hp
  repeat' split at hp
  all_goals try simp at hp
  all_goals try subst hp
  all_goals rfl

/-- `add_child` never raises the missing-data-marker error. -/
theorem addChildNode_no_mdm (t : HeadT) (child : HeadT) (e : Err)
    (hp : addChildNode t child = .error e) : e.isMDM = false := by
  cases t <;> simp only [addChildNode] at hp <;> repeat' split at hp
  all_goals try simp at hp
  all_goals try subst hp
  all_goals rfl

/-- Path-level child addition never raises the missing-data-marker error. -/
theorem addChildAt_no_mdm (t : HeadT) (p : List Nat) (child : HeadT) (e : Err)
    (hp : addChildAt t p child = .error e) : e.isMDM = false := by
  simp only [addChildAt] at hp
  repeat' split at hp
  all_goals try simp at hp
  all_goals try subst hp
  all_goals first
    | rfl
    | exact addChildNode_no_mdm _ _ _ (by assumption)

/-- The header sweep never raises the missing-data-marker error. -/
theorem rowSweep_no_mdm (ranges : List MergedRange) (fn : Option String)
    (column : Nat) (row : List Cell) :
    ∀ fuel (i : Int) (st : CompSt) (e : Err),
      rowSweep ranges fn column row fuel i st = .error e → e.isMDM = false := by
  intro fuel
  induction fuel with
  | zero =>
    intro i st e hp
    simp only [rowSweep] at hp
    simp at hp
    subst hp; rfl
  | succ fuel ih =>
    intro i st e hp
    simp only [rowSweep] at hp
    repeat' split at hp
    all_goals try simp at hp
    all_goals try subst hp
    all_goals first
      | rfl
      | exact ih _ _ _ hp
      | exact headCreator_no_mdm _ _ _ _ (by assumption)
      | exact addChildAt_no_mdm _ _ _ _ (by assumption)

/-- `row_parser` never raises the missing-data-marker error. -/
theorem rowParser_no_mdm (ranges : List MergedRange) (fn : Option String)
    (column : Nat) (row : List Cell) (st : CompSt) (e : Err)
    (hp : rowParser ranges fn column row st = .error e) : e.isMDM = false :=
  rowSweep_no_mdm ranges fn column row _ _ _ _ hp

/-- `Head.__init__` never raises the missing-data-marker error. -/
theorem mkHead_no_mdm (hrow : List Cell) (fn : Option String) (e : Err)
    (hp : mkHead hrow fn = .error e) : e.isMDM = false := by
  simp only [mkHead] at hp
  repeat' split at hp
  all_goals try simp at hp
  all_goals try subst hp
  all_goals first
    | rfl
    | exact headCreator_no_mdm _ _ _ _ (by assumption)

/-- The fuel-indexed extractor never raises the missing-data-marker error,
in any of its three mutual components. -/
theorem parseDataF_no_mdm :
    ∀ fuel : Nat,
      (∀ t row enable fn h e,
        parseDataF fuel t row enable fn h = .error e → e.isMDM = false) ∧
      (∀ ts row fn acc h e,
        parseClassTF fuel ts row fn acc h = .error e → e.isMDM = false) ∧
      (∀ ts row fn h e,
        parseClassFF fuel ts row fn h = .error e → e.isMDM = false) := by
  intro fuel
  induction fuel with
  | zero =>
    refine ⟨?_, ?_, ?_⟩
    · intro t row enable fn h e hp
      simp only [parseDataF] at hp
      simp at hp; subst hp; rfl
    · intro ts row fn acc h e hp
      cases ts
      · simp [parseClassTF] at hp
      · simp only [parseClassTF] at hp
        simp at hp; subst hp; rfl
    · intro ts row fn h e hp
      cases ts
      · simp [parseClassFF] at hp
      · simp only [parseClassFF] at hp
        simp at hp; subst hp; rfl
  | succ fuel ih =>
    obtain ⟨ihD, ihT, ihF⟩ := ih
    refine ⟨?_, ?_, ?_⟩
    · intro t row enable fn h e hp
      cases t
      all_goals simp only [parseDataF, bind, Except.bind] at hp
      all_goals repeat' split at hp
      all_goals try simp at hp
      all_goals try subst hp
      all_goals first
        | rfl
        | exact ihD _ _ _ _ _ _ (by assumption)
        | exact ihT _ _ _ _ _ _ (by assumption)
        | exact ihF _ _ _ _ _ (by assumption)
        | exact validateAndConvert_no_mdm _ _ _ _ (by assumption)
    · intro ts row fn acc h e hp
      cases ts
      · simp [parseClassTF] at hp
      · simp only [parseClassTF, bind, Except.bind] at hp
        repeat' split at hp
        all_goals try simp at hp
        all_goals try subst hp
        all_goals first
          | exact ihD _ _ _ _ _ _ (by assumption)
          | exact ihT _ _ _ _ _ _ hp
    · intro ts row fn h e hp
      cases ts
      · simp [parseClassFF] at hp
      · simp only [parseClassFF, bind, Except.bind] at hp
        repeat' split at hp
        all_goals try simp at hp
        all_goals try subst hp
        all_goals first
          | exact ihD _ _ _ _ _ _ (by assumption)
          | exact ihF _ _ _ _ _ hp

/-- `parse_data` never raises the missing-data-marker error. -/
theorem parseData_no_mdm (t : HeadT) (row : List Cell) (enable : Bool)
    (fn : Option String) (h : Heap) (e : Err)
    (hp : parseData t row enable fn h = .error e) : e.isMDM = false := by
  rw [← parseDataX_eq] at hp
  exact (parseDataF_no_mdm (sizeT t + 1)).1 t row enable fn h e hp

/-- The row loop of `get_data` never raises the missing-data-marker error
itself: any error it reports comes from a row-level collaborator. -/
theorem getRows_no_mdm (ranges : List MergedRange) (fn : Option String) :
    ∀ rows (s : DState) (e : Err),
      getRows ranges fn rows s = .error e → e.isMDM = false := by
  intro rows
  induction rows with
  | nil => intro s e hp; simp [getRows] at hp
  | cons r rest ih =>
    intro s e hp
    simp only [getRows] at hp
    repeat' split at hp
    all_goals try simp at hp
    all_goals try subst hp
    all_goals first
      | rfl
      | exact ih _ _ hp
      | exact parseData_no_mdm _ _ _ _ _ _ (by assumption)
      | exact rowParser_no_mdm _ _ _ _ _ _ (by assumption)

/-- C6: counterexample.  A sheet CAN contain a `#data` row and still make
`get_data` fail with the missing-data-marker error: a single `#data` row
whose value cell is empty extracts Python `None`, and the final
`if data_root is None` check cannot tell that apart from "no data row". -/
theorem c6_counterexample :
    getData sheetEmptyData [] none = .error (.missingDataMarker none) ∧
    ∃ r ∈ sheetEmptyData, markerIs r "#data" = true :=
  ⟨by rw [← getDataX_eq]; rfl,
   ⟨[mkCell 2 1 (some (.vstr "#data")), mkCell 2 2 none],
    by simp [sheetEmptyData], by rfl⟩⟩

/-- Unfolding `get_data` on a session that completes with `data_root` still
`None`. -/
theorem getData_mdm_of (firstRow : List Cell) (rest : List (List Cell))
    (ranges : List MergedRange) (fn : Option String) (fc : Cell) (column : Nat)
    (st0 : CompSt) (s : DState)
    (hpi : pyIndex firstRow 0 = some fc)
    (hfc : fc.value = some (.vstr "#head"))
    (hmk : mkHead (firstRow.drop 1) fn = .ok (column, st0))
    (hgr : getRows ranges fn rest ⟨st0, column, false, .pnone, []⟩ = .ok s)
    (hroot : s.root = .pnone) :
    getData (firstRow :: rest) ranges fn = .error (.missingDataMarker fn) := by
  have hmk2 : mkHead firstRow.tail fn = .ok (column, st0) := by
    rw [← List.drop_one]; exact hmk
  simp [getData, hpi, hfc, hmk2, hgr, hroot]

/-- C6: amended.  `get_data` reports the missing-data-marker error exactly
when the row loop completes with `data_root` still `None`.  The absence of
any `#data` row does force that outcome (second part), but it is not the
only way to reach it. -/
theorem c6_missing_marker_iff (sheet : List (List Cell))
    (ranges : List MergedRange) (fn : Option String) :
    (getData sheet ranges fn = .error (.missingDataMarker fn) ↔
      ∃ firstRow rest fc column st0 s,
        sheet = firstRow :: rest ∧
        pyIndex firstRow 0 = some fc ∧
        fc.value = some (.vstr "#head") ∧
        mkHead (firstRow.drop 1) fn = .ok (column, st0) ∧
        getRows ranges fn rest ⟨st0, column, false, .pnone, []⟩ = .ok s ∧
        s.root = .pnone) ∧
    (∀ firstRow rest fc column st0 s,
      sheet = firstRow :: rest →
      pyIndex firstRow 0 = some fc →
      fc.value = some (.vstr "#head") →
      mkHead (firstRow.drop 1) fn = .ok (column, st0) →
      getRows ranges fn rest ⟨st0, column, false, .pnone, []⟩ = .ok s →
      (∀ r ∈ rest, markerIs r "#data" = false) →
      getData sheet ranges fn = .error (.missingDataMarker fn)) := by
  constructor
  · constructor
    · intro hp
      rcases sheet with _ | ⟨firstRow, rest⟩
      · exact absurd hp (by simp [getData])
      · simp only [getData] at hp
        rcases hpi : pyIndex firstRow 0 with _ | fc <;> rw [hpi] at hp
        · exact absurd hp (by simp)
        · simp only [] at hp
          by_cases hfc : fc.value = some (.vstr "#head")
          · rw [if_pos hfc] at hp
            rcases hmk : mkHead (firstRow.drop 1) fn with e2 | ⟨column, st0⟩ <;>
              rw [hmk] at hp
            · simp at hp
              have hno := mkHead_no_mdm _ fn e2 hmk
              rw [hp] at hno
              simp [Err.isMDM] at hno
            · simp only [] at hp
              rcases hgr : getRows ranges fn rest ⟨st0, column, false, .pnone, []⟩
                  with e2 | s <;> rw [hgr] at hp
              · simp at hp
                have hno := getRows_no_mdm ranges fn rest _ e2 hgr
                rw [hp] at hno
                simp [Err.isMDM] at hno
              · simp only [] at hp
                rcases hroot : s.root with _ | n | n | str | rid | m <;>
                    rw [hroot] at hp <;> try simp at hp
                exact ⟨firstRow, rest, fc, column, st0, s, rfl, hpi, hfc, hmk,
                  hgr, hroot⟩
          · rw [if_neg hfc] at hp
            exact absurd hp (by simp)
    · intro hx
      obtain ⟨firstRow, rest, fc, column, st0, s, hsheet, hpi, hfc, hmk, hgr,
        hroot⟩ := hx
      subst hsheet
      exact getData_mdm_of firstRow rest ranges fn fc column st0 s hpi hfc hmk
        hgr hroot
  · intro firstRow rest fc column st0 s hsheet hpi hfc hmk hgr hnd
    subst hsheet
    rcases getRows_last_data ranges fn rest _ s hgr with ⟨_, hroot2, _⟩ |
        ⟨pre, drow, post, hsplit, h1, _, _, _⟩
    · exact getData_mdm_of firstRow rest ranges fn fc column st0 s hpi hfc hmk
        hgr hroot2
    · have hmem : drow ∈ rest := by
        rw [hsplit]; exact List.mem_append_right _ (List.mem_cons_self _ _)
      exact absurd h1 (by simp [hnd drow hmem])

/-- Witness for C6: the empty-valued `#data` sheet satisfies the amended
characterisation. -/
theorem c6_missing_marker_iff_witness :
    ∃ firstRow rest fc column st0 s,
      sheetEmptyData = firstRow :: rest ∧
      pyIndex firstRow 0 = some fc ∧
      fc.value = some (.vstr "#head") ∧
      mkHead (firstRow.drop 1) none = .ok (column, st0) ∧
      getRows [] none rest ⟨st0, column, false, .pnone, []⟩ = .ok s ∧
      s.root = .pnone :=
  (c6_missing_marker_iff sheetEmptyData [] none).1.mp (by rw [← getDataX_eq]; rfl)

/-- A string key child probes the row like `strProbe` with the heap passed
through. -/
theorem hstring_parse_probe (nm : String) (c : Cell) (row : List Cell)
    (fn : Option String) (h : Heap) :
    parseData (.hstring nm c) row true fn h =
      match strProbe c row fn with
      | .ok v => .ok (v, h)
      | .error e => .error e := by
  simp only [parseData, bind, Except.bind, strProbe]
  rcases hpi : pyIndex row ((c.col : Int) - 2) with _ | dc
  · rfl
  · simp only [validateAndConvert, reduceIte]
    rcases hdv : dc.value with _ | cv <;> simp [hdv]

/-- The String key probe produces an error, an absent key, or a string
key. -/
theorem strProbe_cases (c : Cell) (row : List Cell) (fn : Option String) :
    (∃ e, strProbe c row fn = .error e) ∨ strProbe c row fn = .ok .pnone ∨
    ∃ s, strProbe c row fn = .ok (.pstr s) := by
  unfold strProbe
  rcases hpi : pyIndex row ((c.col : Int) - 2) with _ | dc <;> simp only [hpi]
  · simp
  · rcases hdv : dc.value with _ | cv <;> simp only [hdv] <;> simp

/-- A scalar parse leaves the heap alone and replays identically over any
other heap. -/
theorem scalar_parse_two (t : HeadT) (hs : scalarKind t = true)
    (row : List Cell) (enable : Bool) (fn : Option String) (g : Heap)
    (v : PyVal) (h : Heap) (hp : parseData t row enable fn g = .ok (v, h)) :
    h = g ∧ ∀ g2, parseData t row enable fn g2 = .ok (v, g2) := by
  rw [scalar_parse t hs] at hp
  rcases hx : parseData t row enable fn [] with e | p <;>
    simp [hx, Except.map] at hp
  obtain ⟨hv, hh⟩ := hp
  exact ⟨hh.symm, fun g2 => by rw [scalar_parse t hs, hx]; simp [Except.map, hv]⟩

/-- A flag-cleared scalar parse that succeeds returns Python `None`. -/
theorem scalar_false_pnone (t : HeadT) (hs : scalarKind t = true)
    (row : List Cell) (fn : Option String) (g : Heap) (p : PyVal) (h : Heap)
    (hp : parseData t row false fn g = .ok (p, h)) : p = .pnone := by
  cases t <;> simp [scalarKind] at hs
  case hbase nm c =>
    simp only [parseData] at hp
    rcases hpi : pyIndex row ((c.col : Int) - 2) with _ | dc <;> rw [hpi] at hp
    · exact absurd hp (by simp)
    · simp only [Bool.false_eq_true, if_false] at hp
      rcases hdv : dc.value with _ | cv <;> rw [hdv] at hp <;>
        simp only [] at hp
      · simp only [Except.ok.injEq, Prod.mk.injEq] at hp
        exact hp.1.symm
      · exact absurd hp (by simp)
  all_goals rename_i nm c
  all_goals (
    simp only [parseData, bind, Except.bind, validateAndConvert,
      Bool.false_eq_true, if_false] at hp
    rcases hpi : pyIndex row ((c.col : Int) - 2) with _ | dc <;> rw [hpi] at hp)
  all_goals try (apply absurd hp; intro hx; simp at hx; done)
  all_goals (
    simp only [] at hp
    rcases hdv : dc.value with _ | cv <;> rw [hdv] at hp <;>
      simp only [] at hp
    · simp only [Except.ok.injEq, Prod.mk.injEq] at hp
      exact hp.1.symm
    · exact absurd hp (by simp))

/-- Frame property of the flag-set class-children loop. -/
theorem parseClassT_frame (l : List HeadT) (row : List Cell)
    (fn : Option String) (acc : List (String × PyVal)) (h : Heap)
    (m : List (String × PyVal)) (h2 : Heap)
    (hp : parseClassT l row fn acc h = .ok (m, h2)) (i : Nat)
    (hi : i ∉ idsList l) : heapGet h2 i = heapGet h i :=
  ((parseData_heapEffects (sizeListT l + 1)).2.1 l (Nat.lt_succ_self _) row fn
    acc h m h2 hp).1 i hi


/-- Replay core for idempotence: a flag-set call whose container identities
are absent from the starting heap determines its value and its writes
independently of any restart heap that is no fuller than the final one; a
flag-cleared call succeeding under the same absence returns `None`, leaves
the heap alone, and replays over any equally accumulator-free heap. -/
theorem parseData_idem_core :
    ∀ n : Nat,
      (∀ t, sizeT t < n → (idsOf t).Nodup → keysOk t = true →
        ∀ row fn g v h,
          (∀ i ∈ idsOf t, heapGet g i = none) →
          parseData t row true fn g = .ok (v, h) →
          ∀ g2, (∀ i ∈ idsOf t, heapGet h i = none → heapGet g2 i = none) →
            ∃ h2, parseData t row true fn g2 = .ok (v, h2) ∧
              (∀ i ∈ idsOf t, heapGet h2 i = heapGet h i) ∧
              (∀ i, i ∉ idsOf t → heapGet h2 i = heapGet g2 i)) ∧
      (∀ t, sizeT t < n → (idsOf t).Nodup → keysOk t = true →
        ∀ row fn g p h,
          (∀ i ∈ idsOf t, heapGet g i = none) →
          parseData t row false fn g = .ok (p, h) →
          p = .pnone ∧ h = g ∧
          (∀ g2, (∀ i ∈ idsOf t, heapGet g2 i = none) →
            parseData t row false fn g2 = .ok (.pnone, g2))) ∧
      (∀ l, sizeListT l < n → (idsList l).Nodup → keysOkList l = true →
        ∀ row fn acc g m h,
          (∀ i ∈ idsList l, heapGet g i = none) →
          parseClassT l row fn acc g = .ok (m, h) →
          ∀ g2, (∀ i ∈ idsList l, heapGet h i = none → heapGet g2 i = none) →
            ∃ h2, parseClassT l row fn acc g2 = .ok (m, h2) ∧
              (∀ i ∈ idsList l, heapGet h2 i = heapGet h i) ∧
              (∀ i, i ∉ idsList l → heapGet h2 i = heapGet g2 i)) ∧
      (∀ l, sizeListT l < n → (idsList l).Nodup → keysOkList l = true →
        ∀ row fn g h,
          (∀ i ∈ idsList l, heapGet g i = none) →
          parseClassF l row fn g = .ok h →
          h = g ∧
          (∀ g2, (∀ i ∈ idsList l, heapGet g2 i = none) →
            parseClassF l row fn g2 = .ok g2)) := by
  intro n
  induction n with
  | zero =>
    exact ⟨fun t hlt => absurd hlt (Nat.not_lt_zero _),
      fun t hlt => absurd hlt (Nat.not_lt_zero _),
      fun l hlt => absurd hlt (Nat.not_lt_zero _),
      fun l hlt => absurd hlt (Nat.not_lt_zero _)⟩
  | succ n ih =>
    obtain ⟨ihA, ihB, ihC, ihD⟩ := ih
    refine ⟨?_, ?_, ?_, ?_⟩
    · -- flag-set calls
      intro t hlt hnd hko row fn g v h hg0 hp g2 hg2
      cases t with
      | hbase nm c =>
        obtain ⟨hh, hrep⟩ := scalar_parse_two _ (by rfl) _ _ _ _ _ _ hp
        exact ⟨g2, hrep g2, by simp [idsOf], fun i _ => rfl⟩
      | hint nm c =>
        obtain ⟨hh, hrep⟩ := scalar_parse_two _ (by rfl) _ _ _ _ _ _ hp
        exact ⟨g2, hrep g2, by simp [idsOf], fun i _ => rfl⟩
      | hfloat nm c =>
        obtain ⟨hh, hrep⟩ := scalar_parse_two _ (by rfl) _ _ _ _ _ _ hp
        exact ⟨g2, hrep g2, by simp [idsOf], fun i _ => rfl⟩
      | hstring nm c =>
        obtain ⟨hh, hrep⟩ := scalar_parse_two _ (by rfl) _ _ _ _ _ _ hp
        exact ⟨g2, hrep g2, by simp [idsOf], fun i _ => rfl⟩
      | hlist nm c id key value =>
        rcases key with _ | k
        · simp only [parseData] at hp
          exact absurd hp (by simp)
        · have hsk : ∃ kn kc, k = HeadT.hint kn kc := by
            cases k
            case hint kn kc => exact ⟨kn, kc, rfl⟩
            all_goals simp [keysOk, keysOkOpt] at hko
          obtain ⟨kn, kc, rfl⟩ := hsk
          rcases value with _ | vt
          · rw [parseData.eq_def] at hp
            simp only [bind, Except.bind, reduceIte] at hp
            rw [hint_parse_probe] at hp
            rcases intProbe_cases kc row fn with ⟨e, hpr⟩ | hpr | ⟨kk, hpr⟩ <;>
              rw [hpr] at hp <;>
              exact absurd hp (by
                intro hx
                try simp only [] at hx
                try rw [heapGet_heapSet_self] at hx
                repeat' split at hx
                all_goals simp at hx)
          · have hidm : id ∈ idsOf
                (HeadT.hlist nm c id (some (.hint kn kc)) (some vt)) := by
              simp [idsOf]
            have hszvt : sizeT vt < n := by
              simp only [sizeT, sizeOptT] at hlt; omega
            have hnd2 : id ∉ idsOf vt ∧ (idsOf vt).Nodup := by
              simpa [idsOf, idsOpt] using hnd
            have hkov : keysOk vt = true := by
              simpa [keysOk, keysOkOpt] using hko
            have hsub : ∀ i, i ∈ idsOf vt → i ∈ idsOf
                (HeadT.hlist nm c id (some (.hint kn kc)) (some vt)) := by
              intro i hi
              simp only [idsOf, idsOpt, List.nil_append, List.mem_cons]
              exact Or.inr hi
            rw [parseData.eq_def] at hp
            simp only [bind, Except.bind, reduceIte] at hp
            rw [hint_parse_probe] at hp
            rcases intProbe_cases kc row fn with ⟨e, hpr⟩ | hpr | ⟨kk, hpr⟩ <;>
              rw [hpr] at hp
            · exact absurd hp (by simp)
            · -- key absent on the row
              simp only [] at hp
              rcases hvp : parseData vt row false fn (heapSet g id (.alist []))
                  with e | ⟨pv, h3⟩ <;> rw [hvp] at hp
              · exact absurd hp (by simp)
              · simp only [Except.ok.injEq, Prod.mk.injEq] at hp
                obtain ⟨hv, hh⟩ := hp
                have hg0v : ∀ i ∈ idsOf vt,
                    heapGet (heapSet g id (.alist [])) i = none := by
                  intro i hi
                  rw [heapGet_heapSet_ne g id i _ (fun he => hnd2.1 (he ▸ hi))]
                  exact hg0 i (hsub i hi)
                obtain ⟨hpv, hh3, hrepF⟩ := ihB vt hszvt hnd2.2 hkov row fn
                  (heapSet g id (.alist [])) pv h3 hg0v hvp
                have hhnone : ∀ i ∈ idsOf vt, heapGet h i = none := by
                  intro i hi
                  rw [← hh, hh3,
                    heapGet_heapSet_ne g id i _ (fun he => hnd2.1 (he ▸ hi))]
                  exact hg0 i (hsub i hi)
                have hg2v : ∀ i ∈ idsOf vt,
                    heapGet (heapSet g2 id (.alist [])) i = none := by
                  intro i hi
                  rw [heapGet_heapSet_ne g2 id i _ (fun he => hnd2.1 (he ▸ hi))]
                  exact hg2 i (hsub i hi) (hhnone i hi)
                refine ⟨heapSet g2 id (.alist []), ?_, ?_, ?_⟩
                · rw [parseData.eq_def]
                  simp only [bind, Except.bind, reduceIte]
                  rw [hint_parse_probe, hpr]
                  simp only []
                  rw [hrepF (heapSet g2 id (.alist [])) hg2v]
                  simp only []
                  rw [hv]
                · intro i hi
                  simp only [idsOf, idsOpt, List.nil_append,
                    List.mem_cons] at hi
                  rcases hi with rfl | hi
                  · rw [heapGet_heapSet_self, ← hh, hh3, heapGet_heapSet_self]
                  · rw [heapGet_heapSet_ne g2 id i _
                      (fun he => hnd2.1 (he ▸ hi)), hhnone i hi]
                    exact hg2 i (hsub i hi) (hhnone i hi)
                · intro i hi
                  exact heapGet_heapSet_ne g2 id i _ (fun he => (he ▸ hi) hidm)
            · -- key present on the row
              simp only [] at hp
              rw [heapGet_heapSet_self] at hp
              simp only [] at hp
              by_cases hkl : keyEqLen (.pint kk) ([] : List PyVal).length = true
              · rw [if_pos hkl] at hp
                try simp only [] at hp
                rcases hvp : parseData vt row true fn (heapSet g id (.alist []))
                    with e | ⟨vv, h3⟩ <;> rw [hvp] at hp
                · exact absurd hp (by simp)
                · simp only [] at hp
                  have hfr3 : heapGet h3 id = some (.alist []) := by
                    rw [parseData_frame vt row true fn _ vv h3 hvp id hnd2.1]
                    exact heapGet_heapSet_self g id _
                  rw [hfr3] at hp
                  simp only [List.nil_append, Except.ok.injEq,
                    Prod.mk.injEq] at hp
                  obtain ⟨hv, hh⟩ := hp
                  have hg0v : ∀ i ∈ idsOf vt,
                      heapGet (heapSet g id (.alist [])) i = none := by
                    intro i hi
                    rw [heapGet_heapSet_ne g id i _
                      (fun he => hnd2.1 (he ▸ hi))]
                    exact hg0 i (hsub i hi)
                  have hA := ihA vt hszvt hnd2.2 hkov row fn
                    (heapSet g id (.alist [])) vv h3 hg0v hvp
                  have hg2v : ∀ i ∈ idsOf vt, heapGet h3 i = none →
                      heapGet (heapSet g2 id (.alist [])) i = none := by
                    intro i hi hnone
                    rw [heapGet_heapSet_ne g2 id i _
                      (fun he => hnd2.1 (he ▸ hi))]
                    refine hg2 i (hsub i hi) ?_
                    rw [← hh, heapGet_heapSet_ne h3 id i _
                      (fun he => hnd2.1 (he ▸ hi))]
                    exact hnone
                  obtain ⟨h3p, hvp2, hagr, hfrp⟩ :=
                    hA (heapSet g2 id (.alist [])) hg2v
                  refine ⟨heapSet h3p id (.alist [vv]), ?_, ?_, ?_⟩
                  · rw [parseData.eq_def]
                    simp only [bind, Except.bind, reduceIte]
                    rw [hint_parse_probe, hpr]
                    simp only []
                    rw [heapGet_heapSet_self]
                    simp only []
                    rw [if_pos hkl]
                    try simp only []
                    rw [hvp2]
                    simp only []
                    have hgj : heapGet h3p id = some (.alist []) := by
                      rw [hfrp id hnd2.1]
                      exact heapGet_heapSet_self g2 id _
                    rw [hgj]
                    simp only [List.nil_append]
                    rw [hv]
                  · intro i hi
                    simp only [idsOf, idsOpt, List.nil_append,
                      List.mem_cons] at hi
                    rcases hi with rfl | hi
                    · rw [heapGet_heapSet_self, ← hh, heapGet_heapSet_self]
                    · have hne : i ≠ id := fun he => hnd2.1 (he ▸ hi)
                      rw [heapGet_heapSet_ne h3p id i _ hne, ← hh,
                        heapGet_heapSet_ne h3 id i _ hne]
                      exact hagr i hi
                  · intro i hi
                    have hne : i ≠ id := fun he => (he ▸ hi) hidm
                    have hnv : i ∉ idsOf vt := fun hx => hi (hsub i hx)
                    rw [heapGet_heapSet_ne h3p id i _ hne, hfrp i hnv,
                      heapGet_heapSet_ne g2 id i _ hne]
              · rw [if_neg hkl] at hp
                exact absurd hp (by
                  intro hx
                  repeat' split at hx
                  all_goals simp at hx)
      | hdict nm c id key value =>
        rcases key with _ | k
        · simp only [parseData] at hp
          exact absurd hp (by simp)
        · have hsk : ∃ kn kc, k = HeadT.hstring kn kc := by
            cases k
            case hstring kn kc => exact ⟨kn, kc, rfl⟩
            all_goals simp [keysOk, keysOkOpt] at hko
          obtain ⟨kn, kc, rfl⟩ := hsk
          rcases value with _ | vt
          · rw [parseData.eq_def] at hp
            simp only [bind, Except.bind, reduceIte] at hp
            rw [hstring_parse_probe] at hp
            rcases strProbe_cases kc row fn with ⟨e, hpr⟩ | hpr | ⟨ks, hpr⟩ <;>
              rw [hpr] at hp <;>
              exact absurd hp (by
                intro hx
                try simp only [] at hx
                repeat' split at hx
                all_goals simp at hx)
          · have hidm : id ∈ idsOf
                (HeadT.hdict nm c id (some (.hstring kn kc)) (some vt)) := by
              simp [idsOf]
            have hszvt : sizeT vt < n := by
              simp only [sizeT, sizeOptT] at hlt; omega
            have hnd2 : id ∉ idsOf vt ∧ (idsOf vt).Nodup := by
              simpa [idsOf, idsOpt] using hnd
            have hkov : keysOk vt = true := by
              simpa [keysOk, keysOkOpt] using hko
            have hsub : ∀ i, i ∈ idsOf vt → i ∈ idsOf
                (HeadT.hdict nm c id (some (.hstring kn kc)) (some vt)) := by
              intro i hi
              simp only [idsOf, idsOpt, List.nil_append, List.mem_cons]
              exact Or.inr hi
            rw [parseData.eq_def] at hp
            simp only [bind, Except.bind, reduceIte] at hp
            rw [hstring_parse_probe] at hp
            rcases strProbe_cases kc row fn with ⟨e, hpr⟩ | hpr | ⟨ks, hpr⟩ <;>
              rw [hpr] at hp
            · exact absurd hp (by simp)
            · -- key absent on the row
              simp only [] at hp
              rcases hvp : parseData vt row false fn (heapSet g id (.adict []))
                  with e | ⟨pv, h3⟩ <;> rw [hvp] at hp
              · exact absurd hp (by simp)
              · simp only [Except.ok.injEq, Prod.mk.injEq] at hp
                obtain ⟨hv, hh⟩ := hp
                have hg0v : ∀ i ∈ idsOf vt,
                    heapGet (heapSet g id (.adict [])) i = none := by
                  intro i hi
                  rw [heapGet_heapSet_ne g id i _ (fun he => hnd2.1 (he ▸ hi))]
                  exact hg0 i (hsub i hi)
                obtain ⟨hpv, hh3, hrepF⟩ := ihB vt hszvt hnd2.2 hkov row fn
                  (heapSet g id (.adict [])) pv h3 hg0v hvp
                have hhnone : ∀ i ∈ idsOf vt, heapGet h i = none := by
                  intro i hi
                  rw [← hh, hh3,
                    heapGet_heapSet_ne g id i _ (fun he => hnd2.1 (he ▸ hi))]
                  exact hg0 i (hsub i hi)
                have hg2v : ∀ i ∈ idsOf vt,
                    heapGet (heapSet g2 id (.adict [])) i = none := by
                  intro i hi
                  rw [heapGet_heapSet_ne g2 id i _ (fun he => hnd2.1 (he ▸ hi))]
                  exact hg2 i (hsub i hi) (hhnone i hi)
                refine ⟨heapSet g2 id (.adict []), ?_, ?_, ?_⟩
                · rw [parseData.eq_def]
                  simp only [bind, Except.bind, reduceIte]
                  rw [hstring_parse_probe, hpr]
                  simp only []
                  rw [hrepF (heapSet g2 id (.adict [])) hg2v]
                  simp only []
                  rw [hv]
                · intro i hi
                  simp only [idsOf, idsOpt, List.nil_append,
                    List.mem_cons] at hi
                  rcases hi with rfl | hi
                  · rw [heapGet_heapSet_self, ← hh, hh3, heapGet_heapSet_self]
                  · rw [heapGet_heapSet_ne g2 id i _
                      (fun he => hnd2.1 (he ▸ hi)), hhnone i hi]
                    exact hg2 i (hsub i hi) (hhnone i hi)
                · intro i hi
                  exact heapGet_heapSet_ne g2 id i _ (fun he => (he ▸ hi) hidm)
            · -- key present on the row
              simp only [] at hp
              rcases hvp : parseData vt row true fn (heapSet g id (.adict []))
                  with e | ⟨vv, h3⟩ <;> rw [hvp] at hp
              · exact absurd hp (by simp)
              · simp only [] at hp
                have hfr3 : heapGet h3 id = some (.adict []) := by
                  rw [parseData_frame vt row true fn _ vv h3 hvp id hnd2.1]
                  exact heapGet_heapSet_self g id _
                rw [hfr3] at hp
                simp only [Except.ok.injEq, Prod.mk.injEq] at hp
                obtain ⟨hv, hh⟩ := hp
                have hg0v : ∀ i ∈ idsOf vt,
                    heapGet (heapSet g id (.adict [])) i = none := by
                  intro i hi
                  rw [heapGet_heapSet_ne g id i _ (fun he => hnd2.1 (he ▸ hi))]
                  exact hg0 i (hsub i hi)
                have hA := ihA vt hszvt hnd2.2 hkov row fn
                  (heapSet g id (.adict [])) vv h3 hg0v hvp
                have hg2v : ∀ i ∈ idsOf vt, heapGet h3 i = none →
                    heapGet (heapSet g2 id (.adict [])) i = none := by
                  intro i hi hnone
                  rw [heapGet_heapSet_ne g2 id i _
                    (fun he => hnd2.1 (he ▸ hi))]
                  refine hg2 i (hsub i hi) ?_
                  rw [← hh, heapGet_heapSet_ne h3 id i _
                    (fun he => hnd2.1 (he ▸ hi))]
                  exact hnone
                obtain ⟨h3p, hvp2, hagr, hfrp⟩ :=
                  hA (heapSet g2 id (.adict [])) hg2v
                refine ⟨heapSet h3p id
                  (.adict (updKey [] (.pstr ks) vv)), ?_, ?_, ?_⟩
                · rw [parseData.eq_def]
                  simp only [bind, Except.bind, reduceIte]
                  rw [hstring_parse_probe, hpr]
                  simp only []
                  rw [hvp2]
                  simp only []
                  have hgj : heapGet h3p id = some (.adict []) := by
                    rw [hfrp id hnd2.1]
                    exact heapGet_heapSet_self g2 id _
                  rw [hgj]
                  simp only []
                  rw [hv]
                · intro i hi
                  simp only [idsOf, idsOpt, List.nil_append,
                    List.mem_cons] at hi
                  rcases hi with rfl | hi
                  · rw [heapGet_heapSet_self, ← hh, heapGet_heapSet_self]
                  · have hne : i ≠ id := fun he => hnd2.1 (he ▸ hi)
                    rw [heapGet_heapSet_ne h3p id i _ hne, ← hh,
                      heapGet_heapSet_ne h3 id i _ hne]
                    exact hagr i hi
                · intro i hi
                  have hne : i ≠ id := fun he => (he ▸ hi) hidm
                  have hnv : i ∉ idsOf vt := fun hx => hi (hsub i hx)
                  rw [heapGet_heapSet_ne h3p id i _ hne, hfrp i hnv,
                    heapGet_heapSet_ne g2 id i _ hne]
      | hclass nm c children =>
        simp only [parseData, bind, Except.bind, reduceIte] at hp
        rcases hc : parseClassT children row fn [] g with e | ⟨m, h1⟩ <;>
          rw [hc] at hp
        · exact absurd hp (by simp)
        · simp only [Except.ok.injEq, Prod.mk.injEq] at hp
          obtain ⟨hv, hh⟩ := hp
          have hsz : sizeListT children < n := by
            simp only [sizeT] at hlt; omega
          have hndc : (idsList children).Nodup := by simpa [idsOf] using hnd
          have hkoc : keysOkList children = true := by simpa [keysOk] using hko
          have hg0c : ∀ i ∈ idsList children, heapGet g i = none := fun i hi =>
            hg0 i (by simpa [idsOf] using hi)
          have hC := ihC children hsz hndc hkoc row fn [] g m h1 hg0c hc
          have hg2c : ∀ i ∈ idsList children, heapGet h1 i = none →
              heapGet g2 i = none := by
            intro i hi hnone
            refine hg2 i (by simpa [idsOf] using hi) ?_
            rw [← hh]
            exact hnone
          obtain ⟨h2, hc2, hagr, hfr⟩ := hC g2 hg2c
          refine ⟨h2, ?_, ?_, ?_⟩
          · simp only [parseData, bind, Except.bind, reduceIte]
            rw [hc2]
            simp only []
            rw [hv]
          · intro i hi
            rw [← hh]
            exact hagr i (by simpa [idsOf] using hi)
          · intro i hi
            exact hfr i (by simpa [idsOf] using hi)
    · -- flag-cleared calls
      intro t hlt hnd hko row fn g p h hg0 hp
      cases t with
      | hbase nm c =>
        obtain ⟨hh, hrep⟩ := scalar_parse_two _ (by rfl) _ _ _ _ _ _ hp
        have hpn := scalar_false_pnone _ (by rfl) _ _ _ _ _ hp
        subst hpn
        exact ⟨rfl, hh, fun g2 _ => hrep g2⟩
      | hint nm c =>
        obtain ⟨hh, hrep⟩ := scalar_parse_two _ (by rfl) _ _ _ _ _ _ hp
        have hpn := scalar_false_pnone _ (by rfl) _ _ _ _ _ hp
        subst hpn
        exact ⟨rfl, hh, fun g2 _ => hrep g2⟩
      | hfloat nm c =>
        obtain ⟨hh, hrep⟩ := scalar_parse_two _ (by rfl) _ _ _ _ _ _ hp
        have hpn := scalar_false_pnone _ (by rfl) _ _ _ _ _ hp
        subst hpn
        exact ⟨rfl, hh, fun g2 _ => hrep g2⟩
      | hstring nm c =>
        obtain ⟨hh, hrep⟩ := scalar_parse_two _ (by rfl) _ _ _ _ _ _ hp
        have hpn := scalar_false_pnone _ (by rfl) _ _ _ _ _ hp
        subst hpn
        exact ⟨rfl, hh, fun g2 _ => hrep g2⟩
      | hlist nm c id key value =>
        rcases key with _ | k
        · simp only [parseData] at hp
          exact absurd hp (by simp)
        · have hsk : ∃ kn kc, k = HeadT.hint kn kc := by
            cases k
            case hint kn kc => exact ⟨kn, kc, rfl⟩
            all_goals simp [keysOk, keysOkOpt] at hko
          obtain ⟨kn, kc, rfl⟩ := hsk
          have hidm : id ∈ idsOf
              (HeadT.hlist nm c id (some (.hint kn kc)) value) := by
            simp [idsOf]
          rw [parseData.eq_def] at hp
          simp only [bind, Except.bind, Bool.false_eq_true, if_false] at hp
          rw [hint_parse_probe] at hp
          rcases intProbe_cases kc row fn with ⟨e, hpr⟩ | hpr | ⟨kk, hpr⟩ <;>
            rw [hpr] at hp
          · exact absurd hp (by simp)
          · -- key absent on the row
            simp only [] at hp
            rcases value with _ | vt
            · exact absurd hp (by simp)
            · simp only [] at hp
              rcases hvp : parseData vt row false fn g with e | ⟨pv, h3⟩ <;>
                rw [hvp] at hp
              · exact absurd hp (by simp)
              · simp only [Except.ok.injEq, Prod.mk.injEq] at hp
                obtain ⟨hpn, hh⟩ := hp
                have hszvt : sizeT vt < n := by
                  simp only [sizeT, sizeOptT] at hlt; omega
                have hnd2 : id ∉ idsOf vt ∧ (idsOf vt).Nodup := by
                  simpa [idsOf, idsOpt] using hnd
                have hkov : keysOk vt = true := by
                  simpa [keysOk, keysOkOpt] using hko
                have hsub : ∀ i, i ∈ idsOf vt → i ∈ idsOf
                    (HeadT.hlist nm c id (some (.hint kn kc)) (some vt)) := by
                  intro i hi
                  simp only [idsOf, idsOpt, List.nil_append, List.mem_cons]
                  exact Or.inr hi
                have hg0v : ∀ i ∈ idsOf vt, heapGet g i = none := fun i hi =>
                  hg0 i (hsub i hi)
                obtain ⟨hpv, hh3, hrepF⟩ := ihB vt hszvt hnd2.2 hkov row fn g
                  pv h3 hg0v hvp
                refine ⟨hpn.symm, by rw [← hh, hh3], ?_⟩
                intro g2 hg2
                rw [parseData.eq_def]
                simp only [bind, Except.bind, Bool.false_eq_true, if_false]
                rw [hint_parse_probe, hpr]
                simp only []
                rw [hrepF g2 (fun i hi => hg2 i (hsub i hi))]
          · -- key present on the row: the attribute is missing
            simp only [] at hp
            rw [hg0 id hidm] at hp
            exact absurd hp (by simp)
      | hdict nm c id key value =>
        rcases key with _ | k
        · simp only [parseData] at hp
          exact absurd hp (by simp)
        · have hsk : ∃ kn kc, k = HeadT.hstring kn kc := by
            cases k
            case hstring kn kc => exact ⟨kn, kc, rfl⟩
            all_goals simp [keysOk, keysOkOpt] at hko
          obtain ⟨kn, kc, rfl⟩ := hsk
          have hidm : id ∈ idsOf
              (HeadT.hdict nm c id (some (.hstring kn kc)) value) := by
            simp [idsOf]
          rw [parseData.eq_def] at hp
          simp only [bind, Except.bind, Bool.false_eq_true, if_false] at hp
          rw [hstring_parse_probe] at hp
          rcases strProbe_cases kc row fn with ⟨e, hpr⟩ | hpr | ⟨ks, hpr⟩ <;>
            rw [hpr] at hp
          · exact absurd hp (by simp)
          · -- key absent on the row
            simp only [] at hp
            rcases value with _ | vt
            · exact absurd hp (by simp)
            · simp only [] at hp
              rcases hvp : parseData vt row false fn g with e | ⟨pv, h3⟩ <;>
                rw [hvp] at hp
              · exact absurd hp (by simp)
              · simp only [Except.ok.injEq, Prod.mk.injEq] at hp
                obtain ⟨hpn, hh⟩ := hp
                have hszvt : sizeT vt < n := by
                  simp only [sizeT, sizeOptT] at hlt; omega
                have hnd2 : id ∉ idsOf vt ∧ (idsOf vt).Nodup := by
                  simpa [idsOf, idsOpt] using hnd
                have hkov : keysOk vt = true := by
                  simpa [keysOk, keysOkOpt] using hko
                have hsub : ∀ i, i ∈ idsOf vt → i ∈ idsOf
                    (HeadT.hdict nm c id (some (.hstring kn kc)) (some vt)) := by
                  intro i hi
                  simp only [idsOf, idsOpt, List.nil_append, List.mem_cons]
                  exact Or.inr hi
                have hg0v : ∀ i ∈ idsOf vt, heapGet g i = none := fun i hi =>
                  hg0 i (hsub i hi)
                obtain ⟨hpv, hh3, hrepF⟩ := ihB vt hszvt hnd2.2 hkov row fn g
                  pv h3 hg0v hvp
                refine ⟨hpn.symm, by rw [← hh, hh3], ?_⟩
                intro g2 hg2
                rw [parseData.eq_def]
                simp only [bind, Except.bind, Bool.false_eq_true, if_false]
                rw [hstring_parse_probe, hpr]
                simp only []
                rw [hrepF g2 (fun i hi => hg2 i (hsub i hi))]
          · -- key present on the row: value child runs, then the attribute
            -- read fails
            simp only [] at hp
            rcases value with _ | vt
            · exact absurd hp (by simp)
            · simp only [] at hp
              have hnd2 : id ∉ idsOf vt ∧ (idsOf vt).Nodup := by
                simpa [idsOf, idsOpt] using hnd
              rcases hvp : parseData vt row true fn g with e | ⟨vv, h3⟩ <;>
                rw [hvp] at hp
              · exact absurd hp (by simp)
              · simp only [] at hp
                have hfr3 : heapGet h3 id = none := by
                  rw [parseData_frame vt row true fn g vv h3 hvp id hnd2.1]
                  exact hg0 id hidm
                rw [hfr3] at hp
                exact absurd hp (by simp)
      | hclass nm c children =>
        simp only [parseData, bind, Except.bind, Bool.false_eq_true,
          if_false] at hp
        rcases hc : parseClassF children row fn g with e | h1 <;> rw [hc] at hp
        · exact absurd hp (by simp)
        · simp only [Except.ok.injEq, Prod.mk.injEq] at hp
          obtain ⟨hpn, hh⟩ := hp
          have hsz : sizeListT children < n := by
            simp only [sizeT] at hlt; omega
          have hndc : (idsList children).Nodup := by simpa [idsOf] using hnd
          have hkoc : keysOkList children = true := by simpa [keysOk] using hko
          have hg0c : ∀ i ∈ idsList children, heapGet g i = none := fun i hi =>
            hg0 i (by simpa [idsOf] using hi)
          obtain ⟨hh1, hrepD⟩ := ihD children hsz hndc hkoc row fn g h1 hg0c hc
          refine ⟨hpn.symm, by rw [← hh, hh1], ?_⟩
          intro g2 hg2
          simp only [parseData, bind, Except.bind, Bool.false_eq_true, if_false]
          rw [hrepD g2 (fun i hi => hg2 i (by simpa [idsOf] using hi))]
    · -- the flag-set children loop
      intro l hlt hnd hko row fn acc g m h hg0 hp g2 hg2
      cases l with
      | nil =>
        simp only [parseClassT, Except.ok.injEq, Prod.mk.injEq] at hp
        obtain ⟨hm, hh⟩ := hp
        subst hm
        subst hh
        exact ⟨g2, rfl, by simp [idsList], fun i _ => rfl⟩
      | cons child rest =>
        have hsz1 : sizeT child < n := by
          simp only [sizeListT] at hlt; omega
        have hsz2 : sizeListT rest < n := by
          have h1 := one_le_sizeT child
          simp only [sizeListT] at hlt; omega
        have hnds : (idsOf child).Nodup ∧ (idsList rest).Nodup ∧
            ∀ i, i ∈ idsOf child → i ∉ idsList rest := by
          simp only [idsList] at hnd
          rw [List.nodup_append] at hnd
          exact ⟨hnd.1, hnd.2.1, fun i hi => hnd.2.2 hi⟩
        have hkos : keysOk child = true ∧ keysOkList rest = true := by
          simpa [keysOkList, Bool.and_eq_true] using hko
        simp only [parseClassT, bind, Except.bind] at hp
        rcases hc : parseData child row true fn g with e | ⟨v1, hA⟩ <;>
          rw [hc] at hp
        · exact absurd hp (by simp)
        · simp only [] at hp
          have hg0c : ∀ i ∈ idsOf child, heapGet g i = none := fun i hi =>
            hg0 i (by simp only [idsList, List.mem_append]; exact Or.inl hi)
          have hg0r : ∀ i ∈ idsList rest, heapGet hA i = none := by
            intro i hi
            rw [parseData_frame child row true fn g v1 hA hc i
              (fun hx => hnds.2.2 i hx hi)]
            exact hg0 i (by simp only [idsList, List.mem_append]; exact Or.inr hi)
          have hAeff := ihA child hsz1 hnds.1 hkos.1 row fn g v1 hA hg0c hc
          have hg2c : ∀ i ∈ idsOf child, heapGet hA i = none →
              heapGet g2 i = none := by
            intro i hi hnone
            refine hg2 i (by
              simp only [idsList, List.mem_append]; exact Or.inl hi) ?_
            rw [parseClassT_frame rest row fn _ hA m h hp i
              (fun hx => hnds.2.2 i hi hx)]
            exact hnone
          obtain ⟨hA2, hc2, hagrC, hfrC⟩ := hAeff g2 hg2c
          have hRest := ihC rest hsz2 hnds.2.1 hkos.2 row fn
            (updStr acc child.nameOf v1) hA m h hg0r hp
          have hg2r : ∀ i ∈ idsList rest, heapGet h i = none →
              heapGet hA2 i = none := by
            intro i hi hnone
            rw [hfrC i (fun hx => hnds.2.2 i hx hi)]
            exact hg2 i (by
              simp only [idsList, List.mem_append]; exact Or.inr hi) hnone
          obtain ⟨h2, hr2, hagrR, hfrR⟩ := hRest hA2 hg2r
          refine ⟨h2, ?_, ?_, ?_⟩
          · simp only [parseClassT, bind, Except.bind]
            rw [hc2]
            simp only []
            exact hr2
          · intro i hi
            simp only [idsList, List.mem_append] at hi
            rcases hi with hi | hi
            · rw [hfrR i (fun hx => hnds.2.2 i hi hx), hagrC i hi,
                parseClassT_frame rest row fn _ hA m h hp i
                  (fun hx => hnds.2.2 i hi hx)]
            · exact hagrR i hi
          · intro i hi
            simp only [idsList, List.mem_append] at hi
            push_neg at hi
            rw [hfrR i hi.2, hfrC i hi.1]
    · -- the flag-cleared children loop
      intro l hlt hnd hko row fn g h hg0 hp
      cases l with
      | nil =>
        simp only [parseClassF, Except.ok.injEq] at hp
        exact ⟨hp.symm, fun g2 _ => rfl⟩
      | cons child rest =>
        have hsz1 : sizeT child < n := by
          simp only [sizeListT] at hlt; omega
        have hsz2 : sizeListT rest < n := by
          have h1 := one_le_sizeT child
          simp only [sizeListT] at hlt; omega
        have hnds : (idsOf child).Nodup ∧ (idsList rest).Nodup ∧
            ∀ i, i ∈ idsOf child → i ∉ idsList rest := by
          simp only [idsList] at hnd
          rw [List.nodup_append] at hnd
          exact ⟨hnd.1, hnd.2.1, fun i hi => hnd.2.2 hi⟩
        have hkos : keysOk child = true ∧ keysOkList rest = true := by
          simpa [keysOkList, Bool.and_eq_true] using hko
        simp only [parseClassF, bind, Except.bind] at hp
        rcases hc : parseData child row false fn g with e | ⟨pv, hA⟩ <;>
          rw [hc] at hp
        · exact absurd hp (by simp)
        · simp only [] at hp
          have hg0c : ∀ i ∈ idsOf child, heapGet g i = none := fun i hi =>
            hg0 i (by simp only [idsList, List.mem_append]; exact Or.inl hi)
          obtain ⟨hpv, hhA, hrepB⟩ := ihB child hsz1 hnds.1 hkos.1 row fn g pv
            hA hg0c hc
          rw [hhA] at hp
          have hg0r : ∀ i ∈ idsList rest, heapGet g i = none := fun i hi =>
            hg0 i (by simp only [idsList, List.mem_append]; exact Or.inr hi)
          obtain ⟨hhg, hrepD⟩ := ihD rest hsz2 hnds.2.1 hkos.2 row fn g h
            hg0r hp
          refine ⟨hhg, ?_⟩
          intro g2 hg2
          simp only [parseClassF, bind, Except.bind]
          rw [hrepB g2 (fun i hi => hg2 i (by
            simp only [idsList, List.mem_append]; exact Or.inl hi))]
          simp only []
          exact hrepD g2 (fun i hi => hg2 i (by
            simp only [idsList, List.mem_append]; exact Or.inr hi))

/-- C9: extraction is idempotent per authoritative row.  For a well-formed
compiled tree (distinct container identities, key slots as `add_child`
enforces), a flag-set extraction of a row from a fresh session heap, run a
second time from the heap the first call produced, returns the SAME value,
and leaves every accumulator with the same contents: containers are reset
and rebuilt identically, the row's key values re-satisfying the index
check. -/
theorem c9_idempotent (t : HeadT) (row : List Cell) (fn : Option String)
    (v : PyVal) (h1 : Heap) (hwf : WFT t)
    (hp : parseData t row true fn [] = .ok (v, h1)) :
    ∃ h2, parseData t row true fn h1 = .ok (v, h2) ∧
      ∀ i, heapGet h2 i = heapGet h1 i := by
  obtain ⟨hnd, hko⟩ := hwf
  obtain ⟨h2, hp2, hagr, hfr⟩ := (parseData_idem_core (sizeT t + 1)).1 t
    (Nat.lt_succ_self _) hnd hko row fn [] v h1 (fun i _ => rfl) hp h1
    (fun i _ hnone => hnone)
  refine ⟨h2, hp2, fun i => ?_⟩
  by_cases hi : i ∈ idsOf t
  · exact hagr i hi
  · exact hfr i hi

/-- Witness for C9 on the concrete list node and the row `(0, a)`. -/
theorem c9_idempotent_witness :
    WFT listLV ∧
    parseData listLV (rowKV 0 "a") true none [] =
      .ok (.pref 0, [(0, .alist [.pstr "a"])]) ∧
    ∃ h2, parseData listLV (rowKV 0 "a") true none
        [(0, .alist [.pstr "a"])] = .ok (.pref 0, h2) ∧
      ∀ i, heapGet h2 i = heapGet [(0, .alist [.pstr "a"])] i :=
  ⟨⟨by simp [listLV, idsOf, idsOpt], by simp [listLV, keysOk, keysOkOpt]⟩,
   by rw [← parseDataX_eq]; rfl,
   c9_idempotent listLV (rowKV 0 "a") none (.pref 0)
     [(0, .alist [.pstr "a"])]
     ⟨by simp [listLV, idsOf, idsOpt], by simp [listLV, keysOk, keysOkOpt]⟩
     (by rw [← parseDataX_eq]; rfl)⟩

/-- The two header-cell compilers are the same function. -/
theorem headCreatorC_eq (cell : Cell) (fn : Option String) (freshId : Nat) :
    headCreatorC cell fn freshId = headCreator cell fn freshId := rfl

/-- The two child-attachment operations are the same function. -/
theorem addChildNodeC_eq (t child : HeadT) :
    addChildNodeC t child = addChildNode t child := by
  cases t
  case hlist nm c id key value =>
    rcases key with _ | k
    · cases child <;> rfl
    · rcases value with _ | v <;> rfl
  case hdict nm c id key value =>
    rcases key with _ | k
    · cases child <;> rfl
    · rcases value with _ | v <;> rfl
  all_goals rfl

/-- The two extractors agree, node-size induction over the mutual family. -/
theorem parseDataC_eq_core :
    ∀ n : Nat,
      (∀ t, sizeT t < n → ∀ row enable fn h,
        parseDataC t row enable fn h = parseData t row enable fn h) ∧
      (∀ l, sizeListT l < n → ∀ row fn acc h,
        parseClassTC l row fn acc h = parseClassT l row fn acc h) ∧
      (∀ l, sizeListT l < n → ∀ row fn h,
        parseClassFC l row fn h = parseClassF l row fn h) := by
  intro n
  induction n with
  | zero =>
    exact ⟨fun t hle => absurd hle (Nat.not_lt_zero _),
      fun l hle => absurd hle (Nat.not_lt_zero _),
      fun l hle => absurd hle (Nat.not_lt_zero _)⟩
  | succ n ih =>
    obtain ⟨ihA, ihB, ihC⟩ := ih
    refine ⟨?_, ?_, ?_⟩
    · intro t hle row enable fn h
      cases t with
      | hbase nm c => rfl
      | hint nm c => rfl
      | hfloat nm c => rfl
      | hstring nm c => rfl
      | hlist nm c id key value =>
        cases key with
        | none => simp only [parseDataC, parseData]
        | some k =>
          have hk : sizeT k < n := by
            cases value <;> simp [sizeT, sizeOptT] at hle <;> omega
          cases value with
          | none =>
            simp only [parseDataC, parseData, ihA k hk]
          | some vt =>
            have hv : sizeT vt < n := by
              simp [sizeT, sizeOptT] at hle; omega
            simp only [parseDataC, parseData, ihA k hk, ihA vt hv]
      | hdict nm c id key value =>
        cases key with
        | none => simp only [parseDataC, parseData]
        | some k =>
          have hk : sizeT k < n := by
            cases value <;> simp [sizeT, sizeOptT] at hle <;> omega
          cases value with
          | none =>
            simp only [parseDataC, parseData, ihA k hk]
          | some vt =>
            have hv : sizeT vt < n := by
              simp [sizeT, sizeOptT] at hle; omega
            simp only [parseDataC, parseData, ihA k hk, ihA vt hv]
      | hclass nm c children =>
        have hc : sizeListT children < n := by simp [sizeT] at hle; omega
        simp only [parseDataC, parseData, ihB children hc, ihC children hc]
    · intro l hle row fn acc h
      cases l with
      | nil => rfl
      | cons child rest =>
        have h1 : sizeT child < n := by simp [sizeListT] at hle; omega
        have h2 : sizeListT rest < n := by simp [sizeListT] at hle; omega
        simp only [parseClassTC, parseClassT, ihA child h1, ihB rest h2]
    · intro l hle row fn h
      cases l with
      | nil => rfl
      | cons child rest =>
        have h1 : sizeT child < n := by simp [sizeListT] at hle; omega
        have h2 : sizeListT rest < n := by simp [sizeListT] at hle; omega
        simp only [parseClassFC, parseClassF, ihA child h1, ihC rest h2]

/-- C10: the camelCase module `HeadType.py` and the snake_case module
`head_type.py` are extensionally equal: their header-cell compilers, their
child-attachment operations, and their extractors (over every node tree,
data row, flag, filename and accumulator state) are the same functions, so
they return equal values and raise identical error kinds in identical
situations. -/
theorem c10_modules_extensionally_equal :
    (∀ cell fn freshId,
      headCreatorC cell fn freshId = headCreator cell fn freshId) ∧
    (∀ t child, addChildNodeC t child = addChildNode t child) ∧
    (∀ t row enable fn h,
      parseDataC t row enable fn h = parseData t row enable fn h) :=
  ⟨headCreatorC_eq, addChildNodeC_eq,
   fun t row enable fn h =>
     (parseDataC_eq_core (sizeT t + 1)).1 t (Nat.lt_succ_self _) row enable fn h⟩
